import Mathlib

/-!
Shallow embedding of the record-cleaning and fuzzy-matching core of the
monument-nation repository.

Strings are modelled as `List Char` (Python `str` values, one entry per
code point).  Python floats are modelled as rationals `ℚ`: every number
this pipeline manipulates (Jaccard ratios, parsed prices, thresholds) is
derived from small integers, so the rational model is exact where the
claims speak.

The Unicode primitives used by the source (`str.lower`,
`unicodedata.normalize("NFKD", ·)`, `unicodedata.combining`) are library
functions, not repository code; they are modelled concretely below for
ASCII plus the French accented letters that occur in the data, all other
characters being left untouched.  Every property proved about the
pipeline depends on those primitives only through their behaviour on
`[a-z0-9 ]`, where the model agrees with the real library exactly.
-/

namespace Monument

/-- A Python string, one list entry per code point. -/
abbrev Str := List Char

/-- `[a-z0-9]`, the character class kept by the normalizer's regex. -/
def isLowerAlnum (c : Char) : Bool :=
  ('a' ≤ c ∧ c ≤ 'z') ∨ ('0' ≤ c ∧ c ≤ '9')

/-- ASCII digit. -/
def isDigit (c : Char) : Bool := '0' ≤ c ∧ c ≤ '9'

/-- ASCII whitespace, modelling the characters Python's `str.strip` /
`str.split` treat as whitespace (restricted to the ASCII range). -/
def isPySpace (c : Char) : Bool :=
  c = ' ' ∨ c = '\t' ∨ c = '\n' ∨ c = '\x0d' ∨ c = '\x0b' ∨ c = '\x0c'

/-- Models Python `str.lower`, character-wise: ASCII `A`–`Z` map to
`a`–`z`, the French accented capitals map to their lowercase forms, and
every other character is unchanged. -/
def pyLower (c : Char) : Char :=
  if 'A' ≤ c ∧ c ≤ 'Z' then Char.ofNat (c.toNat + 32)
  else if c.toNat < 0xC0 then c
  else match c with
  | 'À' => 'à'
  | 'Â' => 'â'
  | 'Ç' => 'ç'
  | 'É' => 'é'
  | 'È' => 'è'
  | 'Ê' => 'ê'
  | 'Ë' => 'ë'
  | 'Î' => 'î'
  | 'Ï' => 'ï'
  | 'Ô' => 'ô'
  | 'Ù' => 'ù'
  | 'Û' => 'û'
  | 'Ü' => 'ü'
  | _ => c

/-- `str.lower` applied to a whole string. -/
def lowerStr (s : Str) : Str := s.map pyLower

/-- Models the per-character NFKD decomposition
(`unicodedata.normalize("NFKD", ·)`) for the French accented lowercase
letters; ASCII and all other characters decompose to themselves. -/
def nfkdChar (c : Char) : List Char :=
  if c.toNat < 0xE0 then [c]
  else match c with
  | 'à' => ['a', '̀']
  | 'â' => ['a', '̂']
  | 'ç' => ['c', '̧']
  | 'é' => ['e', '́']
  | 'è' => ['e', '̀']
  | 'ê' => ['e', '̂']
  | 'ë' => ['e', '̈']
  | 'î' => ['i', '̂']
  | 'ï' => ['i', '̈']
  | 'ô' => ['o', '̂']
  | 'ù' => ['u', '̀']
  | 'û' => ['u', '̂']
  | 'ü' => ['u', '̈']
  | _ => [c]

/-- Models `unicodedata.combining(c) != 0`: true exactly on the combining
diacritical marks block used by the decompositions above. -/
def isCombining (c : Char) : Bool :=
  0x300 ≤ c.toNat ∧ c.toNat ≤ 0x36F

/-- `strip_accents` from `merge_paris_monuments_with_google_rating.py`:
NFKD-decompose, then drop combining marks. -/
def strip_accents (s : Str) : Str :=
  ((s.map nfkdChar).flatten).filter (fun c => !isCombining c)

/-- Python `str.strip()`: drop leading and trailing whitespace. -/
def pyStrip (s : Str) : Str :=
  ((s.dropWhile isPySpace).reverse.dropWhile isPySpace).reverse

/-- `s.replace("&", " and ")`. -/
def replaceAmp (s : Str) : Str :=
  s.flatMap (fun c => if c = '&' then (' ' :: 'a' :: 'n' :: 'd' :: [' ']) else [c])

/-- One step of `re.sub(r"[^a-z0-9]+", " ", s)`, rendered as the state
machine of the regex: `inRun` records whether the previous character was
part of a (already replaced) run of non-`[a-z0-9]` characters. -/
def subNonAlnumGo : Bool → Str → Str
  | _, [] => []
  | inRun, c :: cs =>
    if isLowerAlnum c then c :: subNonAlnumGo false cs
    else if inRun then subNonAlnumGo true cs
    else ' ' :: subNonAlnumGo true cs

/-- `re.sub(r"[^a-z0-9]+", " ", s)`: every maximal run of characters
outside `[a-z0-9]` becomes a single space. -/
def subNonAlnum (s : Str) : Str := subNonAlnumGo false s

/-- Split at every single whitespace character, keeping empty pieces
(`pySplit` filters them away, giving Python's run-splitting). -/
def pySplitP : Str → List Str
  | [] => [[]]
  | c :: cs =>
    if isPySpace c then [] :: pySplitP cs
    else
      match pySplitP cs with
      | [] => [[c]]
      | t :: ts => (c :: t) :: ts

/-- Python `str.split()` (no separator): split on whitespace runs,
discarding empty pieces. -/
def pySplit (s : Str) : List Str :=
  (pySplitP s).filter (fun t => decide (t ≠ []))

/-- `" ".join(toks)`. -/
def joinSpace : List Str → Str
  | [] => []
  | [t] => t
  | t :: u :: ts => t ++ ' ' :: joinSpace (u :: ts)

/-- `BILINGUAL_STOPWORDS` from the merge script (a Python set literal;
the duplicate `"memorial"` entry of the literal collapses in the set). -/
def BILINGUAL_STOPWORDS : List Str :=
  ["de", "du", "des", "d", "la", "le", "les", "l", "a", "au", "aux", "et", "en", "sur",
   "of", "the", "and", "in", "on", "at",
   "museum", "musée", "musee",
   "monument", "memorial", "mémorial",
   "basilique", "basilica",
   "cathedrale", "cathédrale", "cathedral",
   "eglise", "église", "church",
   "chapelle", "chapel",
   "chateau", "château", "castle",
   "tour", "tower",
   "palais", "palace",
   "jardin", "gardens", "garden",
   "parc", "park",
   "pont", "bridge",
   "place", "square",
   "saint", "st"].map String.toList

/-- `normalize_name` from the merge script: strip, lower, strip accents,
`&`→" and ", collapse non-alphanumerics to spaces, drop stopword tokens,
rejoin with single spaces.  (The Python `isinstance(s, str)` guard is
vacuous here: the model's inputs are strings.) -/
def normalize_name (s : Str) : Str :=
  let s1 := lowerStr (pyStrip s)
  let s2 := strip_accents s1
  let s3 := replaceAmp s2
  let s4 := subNonAlnum s3
  let toks := (pySplit s4).filter
    (fun t => decide (t ≠ [] ∧ t ∉ BILINGUAL_STOPWORDS))
  joinSpace toks

/-- `simple_token_similarity`: Jaccard similarity of the normalized token
sets, `0` when either set is empty. -/
def simple_token_similarity (a b : Str) : ℚ :=
  let A := (pySplit (normalize_name a)).toFinset
  let B := (pySplit (normalize_name b)).toFinset
  if A = ∅ ∨ B = ∅ then 0
  else ((A ∩ B).card : ℚ) / ((A ∪ B).card : ℚ)

/-! ## The matcher (`find_best_google_match` and its index) -/

/-- First position (counting from `i`) of `key` in the list. -/
def firstIdxFrom (key : Str) : List Str → Nat → Option Nat
  | [], _ => none
  | k :: rest, i => if k = key then some i else firstIdxFrom key rest (i + 1)

/-- The `g_exact` dictionary of the merge script, as a lookup function:
`g_exact` maps each non-empty normalized candidate name to the smallest
index carrying it (the build loop skips empty keys and keeps the first
index per key), so looking up `nn` returns the first index whose
normalized name is `nn`, and empty keys always miss. -/
def g_exact_find (g_norm : List Str) (nn : Str) : Option Nat :=
  if nn = [] then none else firstIdxFrom nn g_norm 0

/-- Pass 1 of `find_best_google_match`: for each alias in order,
normalize and look up in `g_exact`; return the first hit. -/
def exactPass (g_norm : List Str) : List Str → Option Nat
  | [] => none
  | a :: rest =>
    match g_exact_find g_norm (normalize_name a) with
    | some i => some i
    | none => exactPass g_norm rest

/-- Inner loop of `rapidfuzz.process.extractOne(query, choices, scorer)`:
scan the choices in order keeping the best `(choice, score, index)`,
replacing only on a strictly greater score (so the first-seen choice
wins ties); `none` when there are no choices. -/
def extractGo (scorer : Str → Str → ℚ) (query : Str) :
    List Str → Nat → Option (Str × ℚ × Nat) → Option (Str × ℚ × Nat)
  | [], _, best => best
  | ch :: rest, i, best =>
    let s := scorer query ch
    let best' :=
      match best with
      | none => some (ch, s, i)
      | some (_, bs, _) => if s > bs then some (ch, s, i) else best
    extractGo scorer query rest (i + 1) best'

/-- Models `rapidfuzz.process.extractOne` (no score cutoff): best
`(choice, score, index)` over the choice list, first index on ties.  The
scorer (`fuzz.token_set_ratio` in the source) is an external library
function and is kept as a parameter. -/
def extractOne (scorer : Str → Str → ℚ) (query : Str) (choices : List Str) :
    Option (Str × ℚ × Nat) :=
  extractGo scorer query choices 0 none

/-- The rapidfuzz fuzzy pass of `find_best_google_match`: for each alias
whose normalized form is non-empty, run `extractOne` against the
normalized candidate names and keep the strictly best `(index, score)`
seen so far (initially `(None, -1.0)`). -/
def fuzzyRFGo (scorer : Str → Str → ℚ) (g_norm : List Str) :
    List Str → Option Nat × ℚ → Option Nat × ℚ
  | [], best => best
  | a :: rest, best =>
    let query := normalize_name a
    if query = [] then fuzzyRFGo scorer g_norm rest best
    else
      match extractOne scorer query g_norm with
      | none => fuzzyRFGo scorer g_norm rest best
      | some (_, score, idx) =>
        fuzzyRFGo scorer g_norm rest
          (if score > best.2 then (some idx, score) else best)

/-- `for i, gn in enumerate(g_names): ...` — the inner candidate scan of
the fallback fuzzy pass, carried out from index `i` with current best
`best`, replacing only on a strictly greater score. -/
def scanCands (a : Str) : List Str → Nat → Option Nat × ℚ → Option Nat × ℚ
  | [], _, best => best
  | gn :: rest, i, best =>
    let score := simple_token_similarity a gn
    scanCands a rest (i + 1) (if score > best.2 then (some i, score) else best)

/-- The fallback fuzzy pass of `find_best_google_match` (no rapidfuzz):
scan every `(alias, candidate)` pair, sharing the best across aliases. -/
def fuzzyFBGo (g_names : List Str) : List Str → Option Nat × ℚ → Option Nat × ℚ
  | [], best => best
  | a :: rest, best => fuzzyFBGo g_names rest (scanCands a g_names 0 best)

/-- `find_best_google_match(aliases, min_score)` from the merge script,
parametrized by the candidate names `g_names` (the module-level
`df_g["name"]` list), the rapidfuzz availability flag `hasRF`, and the
rapidfuzz scorer.  The fallback branch accepts at the fixed threshold
`0.60`, as in the source (`return best_i if best_score >= 0.60 else
None`). -/
def find_best_google_match (hasRF : Bool) (scorer : Str → Str → ℚ)
    (g_names : List Str) (aliases : List Str) (min_score : ℚ) : Option Nat :=
  match exactPass (g_names.map normalize_name) aliases with
  | some i => some i
  | none =>
    if hasRF then
      if (fuzzyRFGo scorer (g_names.map normalize_name) aliases (none, -1)).1 ≠ none ∧
          (fuzzyRFGo scorer (g_names.map normalize_name) aliases (none, -1)).2 ≥ min_score
      then (fuzzyRFGo scorer (g_names.map normalize_name) aliases (none, -1)).1
      else none
    else
      if (fuzzyFBGo g_names aliases (none, -1)).2 ≥ 3/5
      then (fuzzyFBGo g_names aliases (none, -1)).1
      else none

/-! ## Field cleaning (`clean_and_analyse_data.py`) -/

/-- `needle` begins the list `hay` (prefix test used by the substring
check below). -/
def beginsWith : Str → Str → Bool
  | _, [] => true
  | [], _ :: _ => false
  | h :: t, n :: m => h = n && beginsWith t m

/-- Python's `needle in hay` for strings: contiguous substring test. -/
def containsSeq (hay needle : Str) : Bool :=
  if beginsWith hay needle then true
  else
    match hay with
    | [] => false
    | _ :: t => containsSeq t needle

/-- The placeholder list of `clean_text`. -/
def invalid_strings : List Str :=
  ["not found", "name not found", "address not found",
   "section not found", "none", ""].map String.toList

/-- `clean_text`: `None`/empty stays absent; otherwise strip, and treat a
case-insensitive placeholder as absent. -/
def clean_text : Option Str → Option Str
  | none => none
  | some t =>
    if t = [] then none
    else
      let cleaned := pyStrip t
      if lowerStr cleaned ∈ invalid_strings then none else some cleaned

/-- The leftmost match of `re.search(r'(\d+[.,]?\d*)', s)`: the match
starts at the first digit; `\d+` greedily takes the digit run, `[.,]?`
optionally takes one separator, `\d*` takes the following digit run. -/
def findNumToken : Str → Option Str
  | [] => none
  | c :: t =>
    if isDigit c then
      let d1 := (c :: t).takeWhile isDigit
      match (c :: t).dropWhile isDigit with
      | sep :: r2 =>
        if sep = '.' ∨ sep = ',' then some (d1 ++ sep :: r2.takeWhile isDigit)
        else some d1
      | [] => some d1
    else findNumToken t

/-- Value of a digit run (`0` for the empty run). -/
def digitsToNat (ds : Str) : Nat :=
  ds.foldl (fun n c => 10 * n + (c.toNat - '0'.toNat)) 0

/-- `float(tok.replace(',', '.'))` for a token produced by
`findNumToken`: integer part plus decimal fraction. -/
def parseNum (tok : Str) : ℚ :=
  let t := tok.map (fun c => if c = ',' then '.' else c)
  let intPart := t.takeWhile isDigit
  let frac := (t.dropWhile isDigit).drop 1
  (digitsToNat intPart : ℚ) + (digitsToNat frac : ℚ) / ((10 : ℚ) ^ frac.length)

/-- `clean_price` from `clean_and_analyse_data.py`.  A missing or empty
string yields `None`; a lowercased placeholder (`"not found"`, `"none"`,
`"gratuit"`) yields `0.0` when it contains `"gratuit"` and `None`
otherwise; otherwise the first numeric token is parsed with comma
converted to dot, and `None` is returned when there is none. -/
def clean_price : Option Str → Option ℚ
  | none => none
  | some p =>
    if p = [] then none
    else if lowerStr p ∈ [("not found" : String).toList,
        ("none" : String).toList, ("gratuit" : String).toList] then
      if containsSeq (lowerStr p) ("gratuit" : String).toList then some 0
      else none
    else
      match findNumToken p with
      | some tok => some (parseNum tok)
      | none => none

/-- A raw record of `paris_monuments_data.json` (fields may be absent or
`null`; list fields may be absent when the scraper produced none). -/
structure RawRow where
  name : Option Str
  short_description : Option Str
  address : Option Str
  opening_hours : Option Str
  ticket_price_conditions : Option Str
  ticket_price : Option Str
  payment_methods : Option (List Str)
  visiting_services : Option (List Str)
  url : Option Str
deriving DecidableEq

/-- A record after the cleaning loop of `main`. -/
structure CleanedRow where
  name : Option Str
  short_description : Option Str
  address : Option Str
  opening_hours : Option Str
  ticket_price_conditions : Option Str
  ticket_price : ℚ
  ticket_price_raw : Option Str
  payment_methods : Option (List Str)
  visiting_services : Option (List Str)
  url : Option Str
deriving DecidableEq

/-- The body of the cleaning loop in `main` of
`clean_and_analyse_data.py`: clean the text fields, keep only the first
line of the conditions, keep the raw price, default an unparseable price
to `0.0`, and drop falsy entries from the list fields. -/
def clean_row (r : RawRow) : CleanedRow where
  name := clean_text r.name
  short_description := clean_text r.short_description
  address := clean_text r.address
  opening_hours := clean_text r.opening_hours
  ticket_price_conditions :=
    (clean_text r.ticket_price_conditions).map
      (fun c => pyStrip (c.takeWhile (fun ch => decide (ch ≠ '\n'))))
  ticket_price := (clean_price r.ticket_price).getD 0
  ticket_price_raw := r.ticket_price
  payment_methods := r.payment_methods.map (List.filter (fun x => decide (x ≠ [])))
  visiting_services := r.visiting_services.map (List.filter (fun x => decide (x ≠ [])))
  url := r.url

/-- Python falsiness of an optional string (`None` or `""`). -/
def isFalsy (o : Option Str) : Prop := o = none ∨ o = some []

instance (o : Option Str) : Decidable (isFalsy o) := by
  unfold isFalsy
  infer_instance

/-- The record fails the required-field filter
(`if not new_row['address'] or not new_row['name']`). -/
def failsFilter (c : CleanedRow) : Prop := isFalsy c.address ∨ isFalsy c.name

instance (c : CleanedRow) : Decidable (failsFilter c) := by
  unfold failsFilter
  infer_instance

/-- The cleaning loop of `main`: returns the kept cleaned records (in
input order) together with the `removed_count` tally. -/
def process : List RawRow → List CleanedRow × Nat
  | [] => ([], 0)
  | r :: rest =>
    let c := clean_row r
    let (out, removed) := process rest
    if failsFilter c then (out, removed + 1) else (c :: out, removed)

/-! ## The merge stage (`merge_paris_monuments_with_google_rating.py`) -/

/-- A row of the French CSV (`paris_monuments_cleaned.csv`), restricted
to the two columns the alias builder reads. -/
structure FrRow where
  url : Str
  name : Str
deriving DecidableEq

/-- A row of the Google CSV (read with `dtype=str` and `fillna("")`, so
every field is a string). -/
structure GRow where
  name : Str
  rating : Str
  review_count : Str
  place_link : Str
deriving DecidableEq

/-- A row of the translated (anchor) CSV, the ten required columns. -/
structure EnRow where
  name : Str
  url : Str
  short_description : Str
  ticket_price : Str
  ticket_price_conditions : Str
  opening_hours : Str
  payment_methods : Str
  address : Str
  visiting_services : Str
  ticket_price_raw : Str
deriving DecidableEq

/-- An output row of the merge: the ten anchor columns plus the three
Google columns. -/
structure OutRow where
  name : Str
  url : Str
  short_description : Str
  ticket_price : Str
  ticket_price_conditions : Str
  opening_hours : Str
  payment_methods : Str
  address : Str
  visiting_services : Str
  ticket_price_raw : Str
  google_rating : Str
  google_review_count : Str
  place_link_google_map : Str
deriving DecidableEq

/-- `fr_by_url = {u: n for u, n in zip(df_fr["url"], df_fr["name"]) if u}`:
keys are the non-empty urls; a later row overwrites an earlier one with
the same url (Python dict-comprehension semantics), so lookup returns
the name of the last row carrying the url. -/
def fr_by_url_find (fr : List FrRow) (u : Str) : Option Str :=
  (((fr.filter (fun r => decide (r.url ≠ []))).reverse.find?
    (fun r => decide (r.url = u)))).map FrRow.name

/-- The final dedup loop of `get_aliases_for_en_row`: keep the first
occurrence of each non-empty alias. -/
def dedupAliases : List Str → List Str → List Str
  | [], _ => []
  | a :: rest, seen =>
    if a ≠ [] ∧ a ∉ seen then a :: dedupAliases rest (a :: seen)
    else dedupAliases rest seen

/-- `get_aliases_for_en_row`: the English name (if non-empty), then the
French name found via the url join (if any), then — only when the
English name is itself a French name and not yet listed — the English
name again (`fr_by_name` maps each name to itself); finally dedup,
keeping order and dropping empties. -/
def get_aliases_for_en_row (fr : List FrRow) (row : EnRow) : List Str :=
  let en_name := row.name
  let a1 : List Str := if en_name ≠ [] then [en_name] else []
  let fr_name := (fr_by_url_find fr row.url).getD []
  let a2 := a1 ++ (if fr_name ≠ [] then [fr_name] else [])
  let a3 := a2 ++
    (if en_name ∈ fr.map FrRow.name ∧ en_name ∉ a2 then [en_name] else [])
  dedupAliases a3 []

/-- One iteration of the merge loop: compute the aliases, run the
matcher with the default `min_score = 82.0`, and either take the Google
fields of the matched row or leave them empty and emit a `not_found`
entry `(name, url)`. -/
def mergeRow (hasRF : Bool) (scorer : Str → Str → ℚ) (fr : List FrRow)
    (g : List GRow) (row : EnRow) : OutRow × Option (Str × Str) :=
  match find_best_google_match hasRF scorer (g.map GRow.name)
      (get_aliases_for_en_row fr row) 82 with
  | none =>
    ({ name := row.name, url := row.url,
       short_description := row.short_description,
       ticket_price := row.ticket_price,
       ticket_price_conditions := row.ticket_price_conditions,
       opening_hours := row.opening_hours,
       payment_methods := row.payment_methods,
       address := row.address,
       visiting_services := row.visiting_services,
       ticket_price_raw := row.ticket_price_raw,
       google_rating := [], google_review_count := [],
       place_link_google_map := [] },
     some (row.name, row.url))
  | some gi =>
    ({ name := row.name, url := row.url,
       short_description := row.short_description,
       ticket_price := row.ticket_price,
       ticket_price_conditions := row.ticket_price_conditions,
       opening_hours := row.opening_hours,
       payment_methods := row.payment_methods,
       address := row.address,
       visiting_services := row.visiting_services,
       ticket_price_raw := row.ticket_price_raw,
       google_rating := (g.getD gi ⟨[], [], [], []⟩).rating,
       google_review_count := (g.getD gi ⟨[], [], [], []⟩).review_count,
       place_link_google_map := (g.getD gi ⟨[], [], [], []⟩).place_link },
     none)

/-- The whole merge loop over the anchor rows: the output frame
(`df_out`, one row per anchor) and the `not_found` side-channel list, in
row order. -/
def mergeAll (hasRF : Bool) (scorer : Str → Str → ℚ) (fr : List FrRow)
    (g : List GRow) : List EnRow → List OutRow × List (Str × Str)
  | [] => ([], [])
  | row :: rest =>
    let (o, nf) := mergeRow hasRF scorer fr g row
    let (os, nfs) := mergeAll hasRF scorer fr g rest
    (o :: os, match nf with | some e => e :: nfs | none => nfs)

/-! ## Payment-method normalization (modelled from the spec)

The repository's sources under `src/` carry payment-method lists through
cleaning, translation and merging verbatim; the normalization /
deduplication step the spec describes (§4.4, §4.5) is not present in
`src/`.  It is modelled here from the spec's words. -/

/-- Modelled from the spec: the ordered payment-method keyword→category
table (§4.5: "maps noisy phrases to a small fixed vocabulary (Credit
Card / Cash / Holiday Vouchers / Lire Cheque / Culture Cheque / Cheque /
named passes) via ordered keyword matching — first matching keyword
(checked in a fixed priority order so specific phrases outrank generic
ones) wins").  Keywords are matched case-insensitively against the item;
the specific cheque phrases precede the generic `cheque` rule. -/
def PAYMENT_RULES : List (Str × Str) :=
  [("carte", "Credit Card"), ("credit card", "Credit Card"),
   ("espece", "Cash"), ("cash", "Cash"),
   ("vacances", "Holiday Vouchers"), ("holiday voucher", "Holiday Vouchers"),
   ("lire", "Lire Cheque"),
   ("culture", "Culture Cheque"),
   ("cheque", "Cheque"),
   ("pass education", "Education Pass"), ("paris pass", "Paris Pass")
  ].map (fun p => (p.1.toList, p.2.toList))

/-- Title-case a single word (first letter upper, rest lower), models
`str.title` per word. -/
def titleWord : Str → Str
  | [] => []
  | c :: t =>
    (if 'a' ≤ c ∧ c ≤ 'z' then Char.ofNat (c.toNat - 32) else c) :: lowerStr t

/-- Modelled from the spec: title-casing fallback (`str.title`) applied
to the original string when no keyword matches. -/
def titleCase (s : Str) : Str :=
  joinSpace ((pySplit s).map titleWord)

/-- Modelled from the spec: normalize one payment-method item — first
matching keyword (substring of the accent-stripped lowercased item, in
table order) wins; no match falls back to title-casing the original
string verbatim (§4.5). -/
def normalize_payment (item : Str) : Str :=
  match PAYMENT_RULES.find?
    (fun rule => containsSeq (strip_accents (lowerStr item)) rule.1) with
  | some rule => rule.2
  | none => titleCase item

/-- Modelled from the spec: add one item's normalized category to the
accumulated canonical list unless it is already present. -/
def mergePayStep (acc : List Str) (item : Str) : List Str :=
  if normalize_payment item ∈ acc then acc else acc ++ [normalize_payment item]

/-- Modelled from the spec: list-field merge for payment methods (§4.4):
the union of the normalized items of all contributing records,
de-duplicated by the normalized form with a membership check, insertion
order preserved. -/
def merge_payment_lists (lists : List (List Str)) : List Str :=
  lists.foldl (fun acc items => items.foldl mergePayStep acc) []

/-! ## Theorems -/

theorem exactPass_cons (gn : List Str) (a : Str) (rest : List Str) :
    exactPass gn (a :: rest) =
      match g_exact_find gn (normalize_name a) with
      | some i => some i
      | none => exactPass gn rest := rfl

theorem find_best_of_exact (hasRF : Bool) (scorer : Str → Str → ℚ)
    (g_names aliases : List Str) (m : ℚ) (i : Nat)
    (h : exactPass (g_names.map normalize_name) aliases = some i) :
    find_best_google_match hasRF scorer g_names aliases m = some i := by
  unfold find_best_google_match
  rw [h]

theorem mergePay_inner_nodup (items : List Str) :
    ∀ acc : List Str, acc.Nodup → (items.foldl mergePayStep acc).Nodup := by
  induction items with
  | nil => intro acc h; exact h
  | cons x xs ih =>
    intro acc h
    simp only [List.foldl_cons]
    refine ih _ ?_
    unfold mergePayStep
    by_cases hx : normalize_payment x ∈ acc
    · simpa [hx] using h
    · rw [if_neg hx]
      refine List.Nodup.append h (List.nodup_singleton _) ?_
      intro a ha hb
      rw [List.mem_singleton] at hb
      exact hx (hb ▸ ha)

theorem mergePay_outer_nodup (lists : List (List Str)) :
    ∀ acc : List Str, acc.Nodup →
      (lists.foldl (fun acc items => items.foldl mergePayStep acc) acc).Nodup := by
  induction lists with
  | nil => intro acc h; exact h
  | cons l ls ih =>
    intro acc h
    exact ih _ (mergePay_inner_nodup l acc h)

set_option maxHeartbeats 1000000 in
/-- C6: every payment-method item is normalized to the fixed vocabulary
by ordered first-match keyword rules with a title-casing fallback, and
merging `["Carte Bancaire"]` with `["Cash", "Carte Bancaire"]` yields
exactly `[Credit Card, Cash]`, each category once, in first-seen order;
in general the merged list never repeats a category. -/
theorem merge_payment_normalization :
    merge_payment_lists [["Carte Bancaire".toList],
        ["Cash".toList, "Carte Bancaire".toList]] =
      ["Credit Card".toList, "Cash".toList] ∧
    normalize_payment "Carte Bancaire".toList = "Credit Card".toList ∧
    normalize_payment "Cash".toList = "Cash".toList ∧
    normalize_payment "Some Odd Method".toList = "Some Odd Method".toList ∧
    ∀ lists, (merge_payment_lists lists).Nodup := by
  refine ⟨?_, ?_, ?_, ?_, ?_⟩
  · decide
  · decide
  · decide
  · decide
  · intro lists
    exact mergePay_outer_nodup lists [] List.nodup_nil

/-- C4: `simple_token_similarity` is the Jaccard similarity
`|A∩B| / |A∪B|` of the normalized token sets, lies in `[0, 1]`, and is
`0` whenever either token set is empty. -/
theorem simple_token_similarity_jaccard (a b : Str) :
    simple_token_similarity a b =
      (((pySplit (normalize_name a)).toFinset ∩
          (pySplit (normalize_name b)).toFinset).card : ℚ) /
        (((pySplit (normalize_name a)).toFinset ∪
          (pySplit (normalize_name b)).toFinset).card : ℚ) ∧
    0 ≤ simple_token_similarity a b ∧
    simple_token_similarity a b ≤ 1 ∧
    ((pySplit (normalize_name a)).toFinset = ∅ ∨
        (pySplit (normalize_name b)).toFinset = ∅ →
      simple_token_similarity a b = 0) := by
  have hd : simple_token_similarity a b =
      (if (pySplit (normalize_name a)).toFinset = ∅ ∨
          (pySplit (normalize_name b)).toFinset = ∅ then (0 : ℚ)
       else (((pySplit (normalize_name a)).toFinset ∩
            (pySplit (normalize_name b)).toFinset).card : ℚ) /
          (((pySplit (normalize_name a)).toFinset ∪
            (pySplit (normalize_name b)).toFinset).card : ℚ)) := rfl
  set A := (pySplit (normalize_name a)).toFinset with hA
  set B := (pySplit (normalize_name b)).toFinset with hB
  rcases Classical.em (A = ∅ ∨ B = ∅) with h | h
  · have hc : ((A ∩ B).card : ℚ) = 0 := by
      rcases h with h | h
      · simp [h]
      · simp [h]
    rw [hd, if_pos h]
    refine ⟨?_, le_refl _, by norm_num, fun _ => rfl⟩
    rw [hc, zero_div]
  · have hsub : A ∩ B ⊆ A ∪ B :=
      (Finset.inter_subset_left).trans Finset.subset_union_left
    have hAne : A ≠ ∅ := fun hh => h (Or.inl hh)
    have hpos : 0 < ((A ∪ B).card : ℚ) := by
      have hcard : 0 < (A ∪ B).card := by
        rcases Finset.nonempty_iff_ne_empty.2 hAne with ⟨x, hx⟩
        exact Finset.card_pos.2 ⟨x, Finset.mem_union_left _ hx⟩
      exact_mod_cast hcard
    rw [hd, if_neg h]
    refine ⟨rfl, div_nonneg (Nat.cast_nonneg _) (Nat.cast_nonneg _), ?_,
      fun hh => absurd hh h⟩
    rw [div_le_one hpos]
    exact_mod_cast Finset.card_le_card hsub

/-- C5: `clean_price` parses the first numeric token with comma as
decimal separator (`"16,50 €"` ↦ `16.5`), maps `"Gratuit"` to `0.0` and
`"Not found"` to `None`; the pipeline defaults the `None` to `0.0` while
keeping the raw string, so "explicitly free" and "indeterminate" stay
distinguishable in the cleaned record. -/
theorem clean_price_parsing :
    clean_price (some "16,50 €".toList) = some (33 / 2 : ℚ) ∧
    clean_price (some "Gratuit".toList) = some 0 ∧
    clean_price (some "Not found".toList) = none ∧
    (clean_row ⟨some "x".toList, none, some "y".toList, none, none,
        some "Not found".toList, none, none, none⟩).ticket_price = 0 ∧
    (clean_row ⟨some "x".toList, none, some "y".toList, none, none,
        some "Gratuit".toList, none, none, none⟩).ticket_price = 0 ∧
    (clean_row ⟨some "x".toList, none, some "y".toList, none, none,
        some "Not found".toList, none, none, none⟩).ticket_price_raw ≠
      (clean_row ⟨some "x".toList, none, some "y".toList, none, none,
        some "Gratuit".toList, none, none, none⟩).ticket_price_raw := by
  have h1 : ("16,50 €".toList : Str) ≠ [] := by decide
  have h2 : lowerStr "16,50 €".toList ∉ ["not found".toList, "none".toList,
      "gratuit".toList] := by decide
  have h3 : findNumToken "16,50 €".toList = some "16,50".toList := by decide
  have h4 : ("16,50".toList).map (fun c => if c = ',' then '.' else c) =
      "16.50".toList := by decide
  have h5 : ("16.50".toList).takeWhile isDigit = "16".toList := by decide
  have h6 : ("16.50".toList).dropWhile isDigit = ".50".toList := by decide
  have h7 : (".50".toList : Str).drop 1 = "50".toList := by decide
  have h8 : digitsToNat "16".toList = 16 := by decide
  have h9 : digitsToNat "50".toList = 50 := by decide
  have h10 : ("50".toList : Str).length = 2 := by decide
  have hmain : clean_price (some "16,50 €".toList) = some (33 / 2 : ℚ) := by
    show (if "16,50 €".toList = ([] : Str) then none
      else if lowerStr "16,50 €".toList ∈ ["not found".toList, "none".toList,
          "gratuit".toList] then
        if containsSeq (lowerStr "16,50 €".toList) "gratuit".toList then some (0 : ℚ)
        else none
      else
        match findNumToken "16,50 €".toList with
        | some tok => some (parseNum tok)
        | none => none) = some (33 / 2 : ℚ)
    rw [if_neg h1, if_neg h2, h3]
    show some (parseNum "16,50".toList) = some (33 / 2 : ℚ)
    have : parseNum "16,50".toList = 33 / 2 := by
      unfold parseNum
      simp only [h4, h5, h6, h7, h8, h9, h10]
      norm_num
    rw [this]
  have hgrat : clean_price (some "Gratuit".toList) = some (0 : ℚ) := by
    show (if "Gratuit".toList = ([] : Str) then none
      else if lowerStr "Gratuit".toList ∈ ["not found".toList, "none".toList,
          "gratuit".toList] then
        if containsSeq (lowerStr "Gratuit".toList) "gratuit".toList then some (0 : ℚ)
        else none
      else
        match findNumToken "Gratuit".toList with
        | some tok => some (parseNum tok)
        | none => none) = some (0 : ℚ)
    rw [if_neg (by decide), if_pos (by decide), if_pos (by decide)]
  have hnf : clean_price (some "Not found".toList) = none := by
    show (if "Not found".toList = ([] : Str) then none
      else if lowerStr "Not found".toList ∈ ["not found".toList, "none".toList,
          "gratuit".toList] then
        if containsSeq (lowerStr "Not found".toList) "gratuit".toList then some (0 : ℚ)
        else none
      else
        match findNumToken "Not found".toList with
        | some tok => some (parseNum tok)
        | none => none) = none
    rw [if_neg (by decide), if_pos (by decide), if_neg (by decide)]
  refine ⟨hmain, hgrat, hnf, ?_, ?_, by decide⟩
  · show ((clean_price (some "Not found".toList)).getD 0 : ℚ) = 0
    rw [hnf]
    rfl
  · show ((clean_price (some "Gratuit".toList)).getD 0 : ℚ) = 0
    rw [hgrat]
    rfl

/-- Witness for C4 at a concrete input with an empty token set. -/
theorem simple_token_similarity_jaccard_witness :
    simple_token_similarity "".toList "abc".toList = 0 :=
  (simple_token_similarity_jaccard "".toList "abc".toList).2.2.2 (Or.inl (by decide))

attribute [irreducible] simple_token_similarity

theorem firstIdxFrom_some (key : Str) :
    ∀ (l : List Str) (i0 j : Nat), firstIdxFrom key l i0 = some j →
      ∃ k, j = i0 + k ∧ k < l.length ∧ l.getD k [] = key ∧
        ∀ m < k, l.getD m [] ≠ key := by
  intro l
  induction l with
  | nil => intro i0 j h; simp [firstIdxFrom] at h
  | cons x rest ih =>
    intro i0 j h
    unfold firstIdxFrom at h
    by_cases hx : x = key
    · rw [if_pos hx] at h
      refine ⟨0, by simpa using h.symm, Nat.succ_pos _, hx, fun m hm => absurd hm (Nat.not_lt_zero m)⟩
    · rw [if_neg hx] at h
      obtain ⟨k, hk, hlt, hget, hmin⟩ := ih (i0 + 1) j h
      refine ⟨k + 1, by omega, Nat.succ_lt_succ hlt, by simpa using hget, ?_⟩
      intro m hm
      cases m with
      | zero => simpa using hx
      | succ m => simpa using hmin m (Nat.lt_of_succ_lt_succ hm)

theorem firstIdxFrom_none (key : Str) :
    ∀ (l : List Str) (i0 : Nat), key ∉ l → firstIdxFrom key l i0 = none := by
  intro l
  induction l with
  | nil => intro i0 _; rfl
  | cons x rest ih =>
    intro i0 h
    unfold firstIdxFrom
    rw [if_neg (by intro hx; exact h (hx ▸ List.mem_cons_self x rest))]
    exact ih (i0 + 1) (fun hm => h (List.mem_cons_of_mem x hm))

theorem g_exact_find_none (gn : List Str) (nn : Str)
    (h : nn = [] ∨ nn ∉ gn) : g_exact_find gn nn = none := by
  unfold g_exact_find
  rcases h with h | h
  · rw [if_pos h]
  · by_cases he : nn = []
    · rw [if_pos he]
    · rw [if_neg he]
      exact firstIdxFrom_none nn gn 0 h

theorem g_exact_find_some (gn : List Str) (nn : Str) (i : Nat)
    (h : g_exact_find gn nn = some i) :
    nn ≠ [] ∧ i < gn.length ∧ gn.getD i [] = nn ∧ ∀ j < i, gn.getD j [] ≠ nn := by
  unfold g_exact_find at h
  by_cases he : nn = []
  · rw [if_pos he] at h; exact absurd h (by simp)
  · rw [if_neg he] at h
    obtain ⟨k, hk, hlt, hget, hmin⟩ := firstIdxFrom_some nn gn 0 i h
    exact ⟨he, by omega, by rwa [hk, Nat.zero_add], by
      intro j hj
      exact hmin j (by omega)⟩

theorem exactPass_append_none (gn : List Str) :
    ∀ pre rest : List Str,
      (∀ b ∈ pre, g_exact_find gn (normalize_name b) = none) →
      exactPass gn (pre ++ rest) = exactPass gn rest := by
  intro pre
  induction pre with
  | nil => intro rest _; rfl
  | cons b pre ih =>
    intro rest h
    have hb : g_exact_find gn (normalize_name b) = none :=
      h b (List.mem_cons_self b pre)
    show exactPass gn (b :: (pre ++ rest)) = exactPass gn rest
    rw [exactPass_cons, hb]
    exact ih rest (fun x hx => h x (List.mem_cons_of_mem b hx))

/-- C1: if some alias has a non-empty normalized key present among the
candidates' normalized keys, `find_best_google_match` returns the index
of that candidate immediately — first alias hit wins, the result does
not depend on `min_score`, the rapidfuzz flag, or the scorer — and an
alias with an empty normalized key can never produce the exact hit. -/
theorem find_best_exact_shortcircuit (hasRF : Bool) (scorer : Str → Str → ℚ)
    (g_names pre post : List Str) (a : Str) (m : ℚ) (i : Nat)
    (hpre : ∀ b ∈ pre, normalize_name b = [] ∨
      normalize_name b ∉ g_names.map normalize_name)
    (hi : g_exact_find (g_names.map normalize_name) (normalize_name a) = some i) :
    find_best_google_match hasRF scorer g_names (pre ++ a :: post) m = some i ∧
    ∀ gn : List Str, g_exact_find gn [] = none := by
  constructor
  · refine find_best_of_exact hasRF scorer g_names _ m i ?_
    rw [exactPass_append_none _ pre (a :: post)
      (fun b hb => g_exact_find_none _ _ (hpre b hb))]
    rw [exactPass_cons, hi]
  · intro gn
    exact g_exact_find_none gn [] (Or.inl rfl)

set_option maxHeartbeats 1600000 in
/-- Witness for C1: the second alias "Louvre Museum" exact-hits the
second Google candidate even with an impossible `min_score`, past a
first alias that normalizes to the empty key. -/
theorem find_best_exact_shortcircuit_witness :
    find_best_google_match false (fun _ _ => (0 : ℚ))
      ["Tour Eiffel".toList, "Musée du Louvre".toList]
      ["the".toList, "Louvre Museum".toList] 999 = some 1 :=
  (find_best_exact_shortcircuit false (fun _ _ => (0 : ℚ))
    ["Tour Eiffel".toList, "Musée du Louvre".toList]
    ["the".toList] [] "Louvre Museum".toList 999 1
    (by intro b hb; left; simp at hb; rw [hb]; decide)
    (by decide)).1

theorem scanCands_nil (a : Str) (i : Nat) (b : Option Nat × ℚ) :
    scanCands a [] i b = b := rfl

theorem scanCands_cons (a gn : Str) (rest : List Str) (i : Nat) (b : Option Nat × ℚ) :
    scanCands a (gn :: rest) i b =
      scanCands a rest (i + 1)
        (if simple_token_similarity a gn > b.2
         then (some i, simple_token_similarity a gn) else b) := rfl

set_option maxHeartbeats 1600000 in
theorem scanCands_spec (a : Str) :
    ∀ (l : List Str) (i0 : Nat) (b : Option Nat × ℚ),
      b.2 ≤ (scanCands a l i0 b).2 ∧
      (∀ j < l.length, simple_token_similarity a (l.getD j []) ≤ (scanCands a l i0 b).2) ∧
      (scanCands a l i0 b = b ∨
        ∃ j < l.length,
          (scanCands a l i0 b).1 = some (i0 + j) ∧
          (scanCands a l i0 b).2 = simple_token_similarity a (l.getD j []) ∧
          (∀ k < j, simple_token_similarity a (l.getD k []) <
            (scanCands a l i0 b).2) ∧
          b.2 < (scanCands a l i0 b).2) := by
  intro l
  induction l with
  | nil =>
    intro i0 b
    refine ⟨le_refl _, ?_, Or.inl rfl⟩
    intro j hj
    exact absurd hj (Nat.not_lt_zero j)
  | cons gn rest ih =>
    intro i0 b
    rw [scanCands_cons]
    have hget0 : (gn :: rest).getD 0 [] = gn := rfl
    have hgets : ∀ k : Nat, (gn :: rest).getD (k + 1) [] = rest.getD k [] :=
      fun k => rfl
    generalize hgen : simple_token_similarity a gn = s
    by_cases hs : s > b.2
    · rw [if_pos hs]
      obtain ⟨iha, ihb, ihc⟩ := ih (i0 + 1) (some i0, s)
      refine ⟨le_trans (le_of_lt hs) iha, ?_, ?_⟩
      · intro j hj
        cases j with
        | zero => rw [hget0, hgen]; exact iha
        | succ j => rw [hgets j]; exact ihb j (Nat.lt_of_succ_lt_succ hj)
      · rcases ihc with heq | ⟨j, hj, h1, h2, h3, h4⟩
        · refine Or.inr ⟨0, Nat.succ_pos _, ?_, ?_, ?_, ?_⟩
          · rw [heq]; simp
          · rw [heq, hget0, hgen]
          · intro k hk; exact absurd hk (Nat.not_lt_zero k)
          · rw [heq]; exact hs
        · refine Or.inr ⟨j + 1, Nat.succ_lt_succ hj, ?_, ?_, ?_, ?_⟩
          · rw [h1, show i0 + 1 + j = i0 + (j + 1) from by omega]
          · rw [hgets j]; exact h2
          · intro k hk
            cases k with
            | zero => rw [hget0, hgen]; exact h4
            | succ k => rw [hgets k]; exact h3 k (Nat.lt_of_succ_lt_succ hk)
          · exact lt_trans hs h4
    · rw [if_neg hs]
      obtain ⟨iha, ihb, ihc⟩ := ih (i0 + 1) b
      refine ⟨iha, ?_, ?_⟩
      · intro j hj
        cases j with
        | zero => rw [hget0, hgen]; exact le_trans (le_of_not_lt hs) iha
        | succ j => rw [hgets j]; exact ihb j (Nat.lt_of_succ_lt_succ hj)
      · rcases ihc with heq | ⟨j, hj, h1, h2, h3, h4⟩
        · exact Or.inl heq
        · refine Or.inr ⟨j + 1, Nat.succ_lt_succ hj, ?_, ?_, ?_, h4⟩
          · rw [h1, show i0 + 1 + j = i0 + (j + 1) from by omega]
          · rw [hgets j]; exact h2
          · intro k hk
            cases k with
            | zero => rw [hget0, hgen]; exact lt_of_le_of_lt (le_of_not_lt hs) h4
            | succ k => rw [hgets k]; exact h3 k (Nat.lt_of_succ_lt_succ hk)

theorem fuzzyFBGo_nil (g : List Str) (b : Option Nat × ℚ) :
    fuzzyFBGo g [] b = b := rfl

theorem fuzzyFBGo_cons (g : List Str) (a : Str) (rest : List Str)
    (b : Option Nat × ℚ) :
    fuzzyFBGo g (a :: rest) b = fuzzyFBGo g rest (scanCands a g 0 b) := rfl

theorem fuzzyFBGo_spec (g : List Str) :
    ∀ (aliases : List Str) (b : Option Nat × ℚ),
      b.2 ≤ (fuzzyFBGo g aliases b).2 ∧
      (∀ a ∈ aliases, ∀ j < g.length,
        simple_token_similarity a (g.getD j []) ≤ (fuzzyFBGo g aliases b).2) ∧
      (fuzzyFBGo g aliases b = b ∨
        ∃ a ∈ aliases, ∃ j < g.length,
          (fuzzyFBGo g aliases b).1 = some j ∧
          (fuzzyFBGo g aliases b).2 = simple_token_similarity a (g.getD j [])) := by
  intro aliases
  induction aliases with
  | nil =>
    intro b
    exact ⟨le_refl _, fun a ha => absurd ha (List.not_mem_nil a), Or.inl rfl⟩
  | cons a rest ih =>
    intro b
    rw [fuzzyFBGo_cons]
    obtain ⟨sca, scb, scc⟩ := scanCands_spec a g 0 b
    obtain ⟨iha, ihb, ihc⟩ := ih (scanCands a g 0 b)
    refine ⟨le_trans sca iha, ?_, ?_⟩
    · intro x hx j hj
      rcases List.mem_cons.1 hx with hx | hx
      · exact le_trans (hx ▸ scb j hj) iha
      · exact ihb x hx j hj
    · rcases ihc with heq | ⟨x, hx, j, hj, h1, h2⟩
      · rcases scc with heq2 | ⟨j, hj, h1, h2, _h3, _h4⟩
        · exact Or.inl (heq.trans heq2)
        · refine Or.inr ⟨a, List.mem_cons_self a rest, j, hj, ?_, ?_⟩
          · rw [heq, h1, Nat.zero_add]
          · rw [heq, h2]
      · exact Or.inr ⟨x, List.mem_cons_of_mem a hx, j, hj, h1, h2⟩

theorem extractGo_nil (scorer : Str → Str → ℚ) (q : Str) (i : Nat)
    (best : Option (Str × ℚ × Nat)) : extractGo scorer q [] i best = best := rfl

theorem extractGo_cons_some (scorer : Str → Str → ℚ) (q ch : Str)
    (rest : List Str) (i : Nat) (c0 : Str) (s0 : ℚ) (j0 : Nat) :
    extractGo scorer q (ch :: rest) i (some (c0, s0, j0)) =
      extractGo scorer q rest (i + 1)
        (if scorer q ch > s0 then some (ch, scorer q ch, i)
         else some (c0, s0, j0)) := rfl

theorem extractGo_cons_none (scorer : Str → Str → ℚ) (q ch : Str)
    (rest : List Str) (i : Nat) :
    extractGo scorer q (ch :: rest) i none =
      extractGo scorer q rest (i + 1) (some (ch, scorer q ch, i)) := rfl

theorem extractGo_some_spec (scorer : Str → Str → ℚ) (q : Str) :
    ∀ (l : List Str) (i0 : Nat) (c0 : Str) (s0 : ℚ) (j0 : Nat),
      ∃ c s j, extractGo scorer q l i0 (some (c0, s0, j0)) = some (c, s, j) ∧
        s0 ≤ s ∧
        (∀ k < l.length, scorer q (l.getD k []) ≤ s) ∧
        ((c, s, j) = (c0, s0, j0) ∨
          ∃ k < l.length, j = i0 + k ∧ c = l.getD k [] ∧
            s = scorer q (l.getD k []) ∧
            (∀ m < k, scorer q (l.getD m []) < s) ∧ s0 < s) := by
  intro l
  induction l with
  | nil =>
    intro i0 c0 s0 j0
    exact ⟨c0, s0, j0, rfl, le_refl _,
      fun k hk => absurd hk (Nat.not_lt_zero k), Or.inl rfl⟩
  | cons ch rest ih =>
    intro i0 c0 s0 j0
    rw [extractGo_cons_some]
    have hget0 : (ch :: rest).getD 0 [] = ch := rfl
    have hgets : ∀ k : Nat, (ch :: rest).getD (k + 1) [] = rest.getD k [] :=
      fun k => rfl
    by_cases hs : scorer q ch > s0
    · rw [if_pos hs]
      obtain ⟨c, s, j, heq, hle, hmax, hshape⟩ := ih (i0 + 1) ch (scorer q ch) i0
      refine ⟨c, s, j, heq, le_trans (le_of_lt hs) hle, ?_, ?_⟩
      · intro k hk
        cases k with
        | zero => rw [hget0]; exact hle
        | succ k => rw [hgets k]; exact hmax k (Nat.lt_of_succ_lt_succ hk)
      · rcases hshape with heq2 | ⟨k, hk, h1, h2, h3, h4, h5⟩
        · obtain ⟨hc, hsx, hj⟩ : c = ch ∧ s = scorer q ch ∧ j = i0 := by
            simpa [Prod.ext_iff] using heq2
          refine Or.inr ⟨0, Nat.succ_pos _, ?_, ?_, ?_, ?_, ?_⟩
          · rw [hj]; omega
          · rw [hc, hget0]
          · rw [hsx, hget0]
          · intro m hm; exact absurd hm (Nat.not_lt_zero m)
          · rw [hsx]; exact hs
        · refine Or.inr ⟨k + 1, Nat.succ_lt_succ hk, ?_, ?_, ?_, ?_, ?_⟩
          · rw [h1]; omega
          · rw [h2, hgets k]
          · rw [h3, hgets k]
          · intro m hm
            cases m with
            | zero => rw [hget0]; exact h5
            | succ m => rw [hgets m]; exact h4 m (Nat.lt_of_succ_lt_succ hm)
          · exact lt_trans hs h5
    · rw [if_neg hs]
      obtain ⟨c, s, j, heq, hle, hmax, hshape⟩ := ih (i0 + 1) c0 s0 j0
      refine ⟨c, s, j, heq, hle, ?_, ?_⟩
      · intro k hk
        cases k with
        | zero => rw [hget0]; exact le_trans (le_of_not_lt hs) hle
        | succ k => rw [hgets k]; exact hmax k (Nat.lt_of_succ_lt_succ hk)
      · rcases hshape with heq2 | ⟨k, hk, h1, h2, h3, h4, h5⟩
        · exact Or.inl heq2
        · refine Or.inr ⟨k + 1, Nat.succ_lt_succ hk, ?_, ?_, ?_, ?_, h5⟩
          · rw [h1]; omega
          · rw [h2, hgets k]
          · rw [h3, hgets k]
          · intro m hm
            cases m with
            | zero => rw [hget0]; exact lt_of_le_of_lt (le_of_not_lt hs) h5
            | succ m => rw [hgets m]; exact h4 m (Nat.lt_of_succ_lt_succ hm)

theorem extractOne_nil (scorer : Str → Str → ℚ) (q : Str) :
    extractOne scorer q [] = none := rfl

theorem extractOne_spec (scorer : Str → Str → ℚ) (q : Str) (l : List Str)
    (hne : l ≠ []) :
    ∃ s j, extractOne scorer q l = some (l.getD j [], s, j) ∧ j < l.length ∧
      s = scorer q (l.getD j []) ∧
      (∀ k < j, scorer q (l.getD k []) < s) ∧
      (∀ k < l.length, scorer q (l.getD k []) ≤ s) := by
  cases l with
  | nil => exact absurd rfl hne
  | cons ch rest =>
    have hstep : extractOne scorer q (ch :: rest) =
        extractGo scorer q rest 1 (some (ch, scorer q ch, 0)) := rfl
    have hget0 : (ch :: rest).getD 0 [] = ch := rfl
    have hgets : ∀ k : Nat, (ch :: rest).getD (k + 1) [] = rest.getD k [] :=
      fun k => rfl
    obtain ⟨c, s, j, heq, hle, hmax, hshape⟩ :=
      extractGo_some_spec scorer q rest 1 ch (scorer q ch) 0
    rcases hshape with heq2 | ⟨k, hk, h1, h2, h3, h4, h5⟩
    · obtain ⟨hc, hsx, hj⟩ : c = ch ∧ s = scorer q ch ∧ j = 0 := by
        simpa [Prod.ext_iff] using heq2
      refine ⟨s, 0, ?_, Nat.succ_pos _, ?_, ?_, ?_⟩
      · rw [hstep, heq, hget0, hc, hj]
      · rw [hget0, hsx]
      · intro k hk; exact absurd hk (Nat.not_lt_zero k)
      · intro k hlt
        cases k with
        | zero => rw [hget0]; exact hle
        | succ k => rw [hgets k]; exact hmax k (Nat.lt_of_succ_lt_succ hlt)
    · refine ⟨s, k + 1, ?_, Nat.succ_lt_succ hk, ?_, ?_, ?_⟩
      · rw [hstep, heq, hgets k, ← h2, h1, Nat.add_comm 1 k]
      · rw [hgets k]; exact h3
      · intro m hm
        cases m with
        | zero => rw [hget0]; exact h5
        | succ m => rw [hgets m]; exact h4 m (Nat.lt_of_succ_lt_succ hm)
      · intro m hm
        cases m with
        | zero => rw [hget0]; exact le_of_lt h5
        | succ m => rw [hgets m]; exact hmax m (Nat.lt_of_succ_lt_succ hm)

theorem extractOne_eq_none (scorer : Str → Str → ℚ) (q : Str) (l : List Str)
    (h : extractOne scorer q l = none) : l = [] := by
  cases l with
  | nil => rfl
  | cons ch rest =>
    obtain ⟨c, s, j, heq, -, -, -⟩ :=
      extractGo_some_spec scorer q rest 1 ch (scorer q ch) 0
    rw [show extractOne scorer q (ch :: rest) =
      extractGo scorer q rest 1 (some (ch, scorer q ch, 0)) from rfl, heq] at h
    exact absurd h (by simp)

theorem fuzzyRFGo_nil (scorer : Str → Str → ℚ) (gn : List Str)
    (b : Option Nat × ℚ) : fuzzyRFGo scorer gn [] b = b := rfl

theorem fuzzyRFGo_cons (scorer : Str → Str → ℚ) (gn : List Str) (a : Str)
    (rest : List Str) (b : Option Nat × ℚ) :
    fuzzyRFGo scorer gn (a :: rest) b =
      if normalize_name a = [] then fuzzyRFGo scorer gn rest b
      else
        match extractOne scorer (normalize_name a) gn with
        | none => fuzzyRFGo scorer gn rest b
        | some (_, score, idx) =>
          fuzzyRFGo scorer gn rest
            (if score > b.2 then (some idx, score) else b) := rfl

theorem fuzzyRFGo_spec (scorer : Str → Str → ℚ) (gn : List Str) :
    ∀ (aliases : List Str) (b : Option Nat × ℚ),
      b.2 ≤ (fuzzyRFGo scorer gn aliases b).2 ∧
      (∀ a ∈ aliases, normalize_name a ≠ [] → ∀ j < gn.length,
        scorer (normalize_name a) (gn.getD j []) ≤
          (fuzzyRFGo scorer gn aliases b).2) ∧
      (fuzzyRFGo scorer gn aliases b = b ∨
        ∃ a ∈ aliases, normalize_name a ≠ [] ∧ ∃ j < gn.length,
          (fuzzyRFGo scorer gn aliases b).1 = some j ∧
          (fuzzyRFGo scorer gn aliases b).2 =
            scorer (normalize_name a) (gn.getD j [])) := by
  intro aliases
  induction aliases with
  | nil =>
    intro b
    exact ⟨le_refl _, fun a ha => absurd ha (List.not_mem_nil a), Or.inl rfl⟩
  | cons a rest ih =>
    intro b
    rw [fuzzyRFGo_cons]
    by_cases hq : normalize_name a = []
    · rw [if_pos hq]
      obtain ⟨iha, ihb, ihc⟩ := ih b
      refine ⟨iha, ?_, ?_⟩
      · intro x hx hnx j hj
        rcases List.mem_cons.1 hx with hx | hx
        · rw [hx] at hnx; exact absurd hq hnx
        · exact ihb x hx hnx j hj
      · rcases ihc with heq | ⟨x, hx, hnx, j, hj, h1, h2⟩
        · exact Or.inl heq
        · exact Or.inr ⟨x, List.mem_cons_of_mem a hx, hnx, j, hj, h1, h2⟩
    · rw [if_neg hq]
      cases hEO : extractOne scorer (normalize_name a) gn with
      | none =>
        have hgn : gn = [] := extractOne_eq_none _ _ _ hEO
        obtain ⟨iha, ihb, ihc⟩ := ih b
        refine ⟨iha, ?_, ?_⟩
        · intro x hx hnx j hj
          rw [hgn] at hj
          exact absurd hj (Nat.not_lt_zero j)
        · rcases ihc with heq | ⟨x, hx, hnx, j, hj, h1, h2⟩
          · exact Or.inl heq
          · exact Or.inr ⟨x, List.mem_cons_of_mem a hx, hnx, j, hj, h1, h2⟩
      | some trip =>
        have hgn : gn ≠ [] := by
          intro h
          rw [h, extractOne_nil] at hEO
          exact absurd hEO (by simp)
        obtain ⟨s', j', hEq, hjlt, hseq, hmin, hmax⟩ :=
          extractOne_spec scorer (normalize_name a) gn hgn
        have htrip : trip = (gn.getD j' [], s', j') := by
          rw [hEO] at hEq
          exact Option.some.inj hEq
        rw [htrip]
        obtain ⟨iha, ihb, ihc⟩ := ih (if s' > b.2 then (some j', s') else b)
        have hb2 : b.2 ≤ (if s' > b.2 then ((some j' : Option Nat), s') else b).2 := by
          by_cases hgt : s' > b.2
          · rw [if_pos hgt]; exact le_of_lt hgt
          · rw [if_neg hgt]
        have hs2 : s' ≤ (if s' > b.2 then ((some j' : Option Nat), s') else b).2 := by
          by_cases hgt : s' > b.2
          · rw [if_pos hgt]
          · rw [if_neg hgt]; exact le_of_not_lt hgt
        refine ⟨le_trans hb2 iha, ?_, ?_⟩
        · intro x hx hnx j hj
          rcases List.mem_cons.1 hx with hx | hx
          · rw [hx]
            exact le_trans (le_trans (hseq ▸ hmax j hj) hs2) iha
          · exact ihb x hx hnx j hj
        · rcases ihc with heq | ⟨x, hx, hnx, j, hj, h1, h2⟩
          · by_cases hgt : s' > b.2
            · rw [if_pos hgt] at heq
              refine Or.inr ⟨a, List.mem_cons_self a rest, hq, j', hjlt, ?_, ?_⟩
              · show (fuzzyRFGo scorer gn rest
                  (if s' > b.2 then (some j', s') else b)).1 = some j'
                rw [if_pos hgt, heq]
              · show (fuzzyRFGo scorer gn rest
                  (if s' > b.2 then (some j', s') else b)).2 =
                    scorer (normalize_name a) (gn.getD j' [])
                rw [if_pos hgt, heq, ← hseq]
            · refine Or.inl ?_
              show fuzzyRFGo scorer gn rest
                (if s' > b.2 then ((some j' : Option Nat), s') else b) = b
              rw [if_neg hgt] at heq ⊢
              exact heq
          · exact Or.inr ⟨x, List.mem_cons_of_mem a hx, hnx, j, hj, h1, h2⟩

set_option maxHeartbeats 1600000 in
/-- C2 counterexample: in the fallback strategy the caller-supplied
`min_score` is ignored.  With `min_score = 0` the best fallback pair
scores `1/3 ≥ 0`, yet `find_best_google_match` returns `none` because
the fallback branch tests the hardcoded threshold `0.60`. -/
theorem fuzzy_fallback_ignores_min_score_cex :
    exactPass (["abc xyz".toList].map normalize_name) ["abc def".toList] = none ∧
    fuzzyFBGo ["abc xyz".toList] ["abc def".toList]
      ((none : Option Nat), (-1 : ℚ)) = (some 0, 1/3) ∧
    ((1 : ℚ)/3 ≥ 0) ∧
    find_best_google_match false (fun _ _ => 0) ["abc xyz".toList]
      ["abc def".toList] 0 = none := by
  have hsim : simple_token_similarity "abc def".toList "abc xyz".toList = 1/3 := by
    rw [(simple_token_similarity_jaccard "abc def".toList "abc xyz".toList).1]
    have h1 : ((pySplit (normalize_name "abc def".toList)).toFinset ∩
        (pySplit (normalize_name "abc xyz".toList)).toFinset).card = 1 := by decide
    have h2 : ((pySplit (normalize_name "abc def".toList)).toFinset ∪
        (pySplit (normalize_name "abc xyz".toList)).toFinset).card = 3 := by decide
    rw [h1, h2]
    norm_num
  have hex : exactPass (["abc xyz".toList].map normalize_name)
      ["abc def".toList] = none := by decide
  have hfb : fuzzyFBGo ["abc xyz".toList] ["abc def".toList]
      ((none : Option Nat), (-1 : ℚ)) = (some 0, 1/3) := by
    rw [fuzzyFBGo_cons, fuzzyFBGo_nil, scanCands_cons, scanCands_nil, hsim]
    norm_num
  have hfind : find_best_google_match false (fun _ _ => 0) ["abc xyz".toList]
      ["abc def".toList] 0 = none := by
    unfold find_best_google_match
    rw [hex]
    show (if (fuzzyFBGo ["abc xyz".toList] ["abc def".toList]
        ((none : Option Nat), (-1 : ℚ))).2 ≥ 3/5
      then (fuzzyFBGo ["abc xyz".toList] ["abc def".toList]
        ((none : Option Nat), (-1 : ℚ))).1
      else none) = none
    rw [hfb]
    norm_num
  exact ⟨hex, hfb, by norm_num, hfind⟩

/-- C2 (amended): when no alias has an exact normalized hit, each
strategy keeps the single highest-scoring `(alias, candidate)` pair seen
across all aliases and accepts it against its own threshold: the
rapidfuzz path against the caller-supplied `min_score`, the fallback
path against the hardcoded `0.60` (not `min_score`); in both paths the
kept score is the maximum over all scored pairs and is attained by the
returned candidate. -/
theorem find_best_fuzzy_best_pair (scorer : Str → Str → ℚ)
    (g_names aliases : List Str) (m : ℚ)
    (hex : exactPass (g_names.map normalize_name) aliases = none) :
    (find_best_google_match true scorer g_names aliases m =
      if (fuzzyRFGo scorer (g_names.map normalize_name) aliases
            ((none : Option Nat), (-1 : ℚ))).1 ≠ none ∧
          (fuzzyRFGo scorer (g_names.map normalize_name) aliases
            ((none : Option Nat), (-1 : ℚ))).2 ≥ m
      then (fuzzyRFGo scorer (g_names.map normalize_name) aliases
            ((none : Option Nat), (-1 : ℚ))).1
      else none) ∧
    (find_best_google_match false scorer g_names aliases m =
      if (fuzzyFBGo g_names aliases ((none : Option Nat), (-1 : ℚ))).2 ≥ 3/5
      then (fuzzyFBGo g_names aliases ((none : Option Nat), (-1 : ℚ))).1
      else none) ∧
    (∀ a ∈ aliases, normalize_name a ≠ [] →
      ∀ j < (g_names.map normalize_name).length,
        scorer (normalize_name a) ((g_names.map normalize_name).getD j []) ≤
          (fuzzyRFGo scorer (g_names.map normalize_name) aliases
            ((none : Option Nat), (-1 : ℚ))).2) ∧
    (∀ i, (fuzzyRFGo scorer (g_names.map normalize_name) aliases
        ((none : Option Nat), (-1 : ℚ))).1 = some i →
      ∃ a ∈ aliases, normalize_name a ≠ [] ∧
        i < (g_names.map normalize_name).length ∧
        (fuzzyRFGo scorer (g_names.map normalize_name) aliases
          ((none : Option Nat), (-1 : ℚ))).2 =
          scorer (normalize_name a) ((g_names.map normalize_name).getD i [])) ∧
    (∀ a ∈ aliases, ∀ j < g_names.length,
      simple_token_similarity a (g_names.getD j []) ≤
        (fuzzyFBGo g_names aliases ((none : Option Nat), (-1 : ℚ))).2) ∧
    (∀ i, (fuzzyFBGo g_names aliases ((none : Option Nat), (-1 : ℚ))).1 = some i →
      ∃ a ∈ aliases, i < g_names.length ∧
        (fuzzyFBGo g_names aliases ((none : Option Nat), (-1 : ℚ))).2 =
          simple_token_similarity a (g_names.getD i [])) := by
  obtain ⟨rfa, rfb, rfc⟩ :=
    fuzzyRFGo_spec scorer (g_names.map normalize_name) aliases
      ((none : Option Nat), (-1 : ℚ))
  obtain ⟨fba, fbb, fbc⟩ :=
    fuzzyFBGo_spec g_names aliases ((none : Option Nat), (-1 : ℚ))
  refine ⟨?_, ?_, rfb, ?_, fbb, ?_⟩
  · unfold find_best_google_match
    rw [hex]
    rfl
  · unfold find_best_google_match
    rw [hex]
    rfl
  · intro i h
    rcases rfc with heq | ⟨a, ha, hna, j, hj, h1, h2⟩
    · rw [heq] at h
      exact absurd h (by simp)
    · have hij : i = j := by
        rw [h1] at h
        exact (Option.some.inj h).symm
      exact ⟨a, ha, hna, hij ▸ hj, hij ▸ h2⟩
  · intro i h
    rcases fbc with heq | ⟨a, ha, j, hj, h1, h2⟩
    · rw [heq] at h
      exact absurd h (by simp)
    · have hij : i = j := by
        rw [h1] at h
        exact (Option.some.inj h).symm
      exact ⟨a, ha, hij ▸ hj, hij ▸ h2⟩

set_option maxHeartbeats 1600000 in
/-- Witness for the amended C2 at a concrete no-exact-hit input: a
constant rapidfuzz scorer of 90 clears `min_score = 82`, so the first
candidate is returned. -/
theorem find_best_fuzzy_best_pair_witness :
    find_best_google_match true (fun _ _ => (90 : ℚ)) ["tour eiffel".toList]
      ["arc de triomphe".toList] 82 = some 0 := by
  have hEO : extractOne (fun _ _ => (90 : ℚ))
      (normalize_name "arc de triomphe".toList)
      (["tour eiffel".toList].map normalize_name) =
      some (normalize_name "tour eiffel".toList, 90, 0) := rfl
  have hrf : fuzzyRFGo (fun _ _ => (90 : ℚ))
      (["tour eiffel".toList].map normalize_name) ["arc de triomphe".toList]
      ((none : Option Nat), (-1 : ℚ)) = (some 0, 90) := by
    rw [fuzzyRFGo_cons, if_neg (by decide), hEO]
    show fuzzyRFGo (fun _ _ => (90 : ℚ)) (["tour eiffel".toList].map normalize_name)
      [] (if (90 : ℚ) > ((none : Option Nat), (-1 : ℚ)).2
          then ((some 0 : Option Nat), (90 : ℚ))
          else ((none : Option Nat), (-1 : ℚ))) = (some 0, 90)
    rw [fuzzyRFGo_nil]
    norm_num
  have h := (find_best_fuzzy_best_pair (fun _ _ => (90 : ℚ))
    ["tour eiffel".toList] ["arc de triomphe".toList] 82 (by decide)).1
  rw [h, hrf]
  rw [if_pos ⟨by simp, by norm_num⟩]

/-- C10: for a fixed candidate index and alias list the matcher is a
pure function (same result on every evaluation), and ties go to the
first-seen candidate: the exact table keeps the first index per
normalized key, rapidfuzz's `extractOne` returns the first index
attaining the maximal score, and the fallback candidate scan replaces
its best only on a strictly greater score, so its winner is the first
index attaining the maximum. -/
theorem find_best_deterministic_tiebreak :
    (∀ (hasRF : Bool) (scorer : Str → Str → ℚ) (g_names aliases : List Str)
        (m : ℚ),
      find_best_google_match hasRF scorer g_names aliases m =
        find_best_google_match hasRF scorer g_names aliases m) ∧
    (∀ (gn : List Str) (k : Str) (i : Nat), g_exact_find gn k = some i →
      i < gn.length ∧ gn.getD i [] = k ∧ ∀ j < i, gn.getD j [] ≠ k) ∧
    (∀ (scorer : Str → Str → ℚ) (q : Str) (l : List Str) (c : Str) (s : ℚ)
        (j : Nat),
      extractOne scorer q l = some (c, s, j) →
        j < l.length ∧ c = l.getD j [] ∧ s = scorer q (l.getD j []) ∧
        (∀ k < j, scorer q (l.getD k []) < s) ∧
        (∀ k < l.length, scorer q (l.getD k []) ≤ s)) ∧
    (∀ (a : Str) (g : List Str) (i : Nat),
      (scanCands a g 0 ((none : Option Nat), (-1 : ℚ))).1 = some i →
        i < g.length ∧
        (scanCands a g 0 ((none : Option Nat), (-1 : ℚ))).2 =
          simple_token_similarity a (g.getD i []) ∧
        (∀ k < i, simple_token_similarity a (g.getD k []) <
          (scanCands a g 0 ((none : Option Nat), (-1 : ℚ))).2) ∧
        (∀ k < g.length, simple_token_similarity a (g.getD k []) ≤
          (scanCands a g 0 ((none : Option Nat), (-1 : ℚ))).2)) := by
  refine ⟨fun _ _ _ _ _ => rfl, ?_, ?_, ?_⟩
  · intro gn k i h
    obtain ⟨-, h1, h2, h3⟩ := g_exact_find_some gn k i h
    exact ⟨h1, h2, h3⟩
  · intro scorer q l c s j h
    have hne : l ≠ [] := by
      intro he
      rw [he, extractOne_nil] at h
      exact absurd h (by simp)
    obtain ⟨s', j', hEq, hjlt, hseq, hmin, hmax⟩ := extractOne_spec scorer q l hne
    rw [h] at hEq
    obtain ⟨hc, hs, hj⟩ : c = l.getD j' [] ∧ s = s' ∧ j = j' := by
      simpa [Prod.ext_iff] using hEq
    subst hj
    subst hs
    exact ⟨hjlt, hc, hc ▸ hseq, hmin, hmax⟩
  · intro a g i h
    obtain ⟨-, scb, scc⟩ := scanCands_spec a g 0 ((none : Option Nat), (-1 : ℚ))
    rcases scc with heq | ⟨j, hj, h1, h2, h3, -⟩
    · rw [heq] at h
      exact absurd h (by simp)
    · have hij : i = j := by
        rw [h1] at h
        have := Option.some.inj h
        omega
      subst hij
      exact ⟨hj, by simpa using h2, h3, scb⟩

/-- Witness for C10: the exact table keeps the first of two candidates
with the same normalized key. -/
theorem find_best_deterministic_tiebreak_witness :
    (0 : Nat) < (["louvre".toList, "louvre".toList] : List Str).length ∧
    (["louvre".toList, "louvre".toList] : List Str).getD 0 [] = "louvre".toList ∧
    (∀ j < 0, (["louvre".toList, "louvre".toList] : List Str).getD j [] ≠
      "louvre".toList) :=
  find_best_deterministic_tiebreak.2.1 ["louvre".toList, "louvre".toList]
    "louvre".toList 0 (by decide)

theorem filters_length (p : CleanedRow → Bool) :
    ∀ l : List CleanedRow,
      (l.filter (fun c => !p c)).length + (l.filter p).length = l.length := by
  intro l
  induction l with
  | nil => rfl
  | cons c rest ih =>
    by_cases hc : p c
    · rw [List.filter_cons, List.filter_cons]
      rw [if_neg (by simp [hc]), if_pos (by simp [hc])]
      simp only [List.length_cons]
      omega
    · rw [List.filter_cons, List.filter_cons]
      rw [if_pos (by simp [hc]), if_neg (by simp [hc])]
      simp only [List.length_cons]
      omega

theorem process_cons (r : RawRow) (rest : List RawRow) :
    process (r :: rest) =
      if failsFilter (clean_row r)
      then ((process rest).1, (process rest).2 + 1)
      else (clean_row r :: (process rest).1, (process rest).2) := by
  rcases hpr : process rest with ⟨out, removed⟩
  unfold process
  rw [hpr]

theorem process_eq (rows : List RawRow) :
    process rows =
      ((rows.map clean_row).filter (fun c => !decide (failsFilter c)),
        ((rows.map clean_row).filter (fun c => decide (failsFilter c))).length) := by
  induction rows with
  | nil => rfl
  | cons r rest ih =>
    rw [process_cons, ih]
    by_cases hf : failsFilter (clean_row r)
    · rw [if_pos hf]
      simp only [List.map_cons, List.filter_cons]
      rw [if_neg (by simp [hf]), if_pos (by simp [hf])]
      rw [List.length_cons]
    · rw [if_neg hf]
      simp only [List.map_cons, List.filter_cons]
      rw [if_pos (by simp [hf]), if_neg (by simp [hf])]

/-- C7: in the cleaning loop, exactly the records whose cleaned name or
cleaned address is falsy are excluded from the output; each is counted
in the `removed_count` tally, the kept and removed records partition the
input, and every record in the output has a present name and address. -/
theorem process_required_field_filter (rows : List RawRow) :
    (process rows).1 =
      (rows.map clean_row).filter (fun c => !decide (failsFilter c)) ∧
    (process rows).2 =
      ((rows.map clean_row).filter (fun c => decide (failsFilter c))).length ∧
    (process rows).1.length + (process rows).2 = rows.length ∧
    ∀ c ∈ (process rows).1, ¬ isFalsy c.name ∧ ¬ isFalsy c.address := by
  have hp := process_eq rows
  have h1 : (process rows).1 =
      (rows.map clean_row).filter (fun c => !decide (failsFilter c)) := by
    rw [hp]
  have h2 : (process rows).2 =
      ((rows.map clean_row).filter (fun c => decide (failsFilter c))).length := by
    rw [hp]
  refine ⟨h1, h2, ?_, ?_⟩
  · rw [h1, h2]
    have := filters_length (fun c => decide (failsFilter c)) (rows.map clean_row)
    calc ((rows.map clean_row).filter (fun c => !decide (failsFilter c))).length +
          ((rows.map clean_row).filter (fun c => decide (failsFilter c))).length
        = (rows.map clean_row).length := this
      _ = rows.length := List.length_map _ _
  · intro c hc
    rw [h1] at hc
    have hpred := List.of_mem_filter hc
    have hnf : ¬ failsFilter c := by simpa using hpred
    unfold failsFilter at hnf
    push_neg at hnf
    exact ⟨hnf.2, hnf.1⟩

/-- Witness for C7 at a concrete two-record input: the record with a
missing address is removed and counted, the valid one is kept. -/
theorem process_required_field_filter_witness :
    (process [⟨some "Louvre".toList, none, some "Rue x".toList, none, none,
        none, none, none, none⟩,
      ⟨some "Ghost".toList, none, some "Not found".toList, none, none,
        none, none, none, none⟩]).2 = 1 ∧
    ¬ isFalsy (⟨some "Louvre".toList, none, some "Rue x".toList, none, none,
        (0 : ℚ), none, none, none, none⟩ : CleanedRow).name := by
  constructor
  · have h := (process_required_field_filter
      [⟨some "Louvre".toList, none, some "Rue x".toList, none, none,
        none, none, none, none⟩,
       ⟨some "Ghost".toList, none, some "Not found".toList, none, none,
        none, none, none, none⟩]).2.1
    rw [h]
    decide
  · have h := (process_required_field_filter
      [⟨some "Louvre".toList, none, some "Rue x".toList, none, none,
        none, none, none, none⟩]).2.2.2
      (clean_row ⟨some "Louvre".toList, none, some "Rue x".toList, none, none,
        none, none, none, none⟩) (by decide)
    exact (by decide : clean_row ⟨some "Louvre".toList, none,
      some "Rue x".toList, none, none, none, none, none, none⟩ =
        ⟨some "Louvre".toList, none, some "Rue x".toList, none, none,
          (0 : ℚ), none, none, none, none⟩) ▸ h.1

theorem exactPass_some_lt (gn : List Str) :
    ∀ (aliases : List Str) (i : Nat), exactPass gn aliases = some i →
      i < gn.length := by
  intro aliases
  induction aliases with
  | nil =>
    intro i h
    rw [show exactPass gn [] = none from rfl] at h
    exact absurd h (by simp)
  | cons a rest ih =>
    intro i h
    rw [exactPass_cons] at h
    cases hge : g_exact_find gn (normalize_name a) with
    | some j =>
      rw [hge] at h
      have h' : (some j : Option Nat) = some i := h
      obtain ⟨-, hlt, -, -⟩ := g_exact_find_some gn (normalize_name a) j hge
      exact Option.some.inj h' ▸ hlt
    | none =>
      rw [hge] at h
      exact ih i h

theorem find_best_some_lt (hasRF : Bool) (scorer : Str → Str → ℚ)
    (g_names aliases : List Str) (m : ℚ) (i : Nat)
    (h : find_best_google_match hasRF scorer g_names aliases m = some i) :
    i < g_names.length := by
  unfold find_best_google_match at h
  cases hex : exactPass (g_names.map normalize_name) aliases with
  | some j =>
    rw [hex] at h
    have h' : (some j : Option Nat) = some i := h
    have hj := exactPass_some_lt _ aliases j hex
    rw [List.length_map] at hj
    exact Option.some.inj h' ▸ hj
  | none =>
    rw [hex] at h
    cases hasRF with
    | true =>
      have h' : (if (fuzzyRFGo scorer (g_names.map normalize_name) aliases
            ((none : Option Nat), (-1 : ℚ))).1 ≠ none ∧
          (fuzzyRFGo scorer (g_names.map normalize_name) aliases
            ((none : Option Nat), (-1 : ℚ))).2 ≥ m
        then (fuzzyRFGo scorer (g_names.map normalize_name) aliases
            ((none : Option Nat), (-1 : ℚ))).1
        else none) = some i := h
      by_cases hc : (fuzzyRFGo scorer (g_names.map normalize_name) aliases
            ((none : Option Nat), (-1 : ℚ))).1 ≠ none ∧
          (fuzzyRFGo scorer (g_names.map normalize_name) aliases
            ((none : Option Nat), (-1 : ℚ))).2 ≥ m
      · rw [if_pos hc] at h'
        rcases (fuzzyRFGo_spec scorer (g_names.map normalize_name) aliases
            ((none : Option Nat), (-1 : ℚ))).2.2 with heq | ⟨a, -, -, j, hj, h1, -⟩
        · rw [heq] at h'
          exact absurd h' (by simp)
        · rw [h1] at h'
          have hj' : j < g_names.length := by
            rwa [List.length_map] at hj
          exact Option.some.inj h' ▸ hj'
      · rw [if_neg hc] at h'
        exact absurd h' (by simp)
    | false =>
      have h' : (if (fuzzyFBGo g_names aliases ((none : Option Nat), (-1 : ℚ))).2 ≥ 3/5
        then (fuzzyFBGo g_names aliases ((none : Option Nat), (-1 : ℚ))).1
        else none) = some i := h
      by_cases hc : (fuzzyFBGo g_names aliases ((none : Option Nat), (-1 : ℚ))).2 ≥ 3/5
      · rw [if_pos hc] at h'
        rcases (fuzzyFBGo_spec g_names aliases
            ((none : Option Nat), (-1 : ℚ))).2.2 with heq | ⟨a, -, j, hj, h1, -⟩
        · rw [heq] at h'
          exact absurd h' (by simp)
        · rw [h1] at h'
          exact Option.some.inj h' ▸ hj
      · rw [if_neg hc] at h'
        exact absurd h' (by simp)

theorem mergeRow_frame (hasRF : Bool) (scorer : Str → Str → ℚ)
    (fr : List FrRow) (g : List GRow) (row : EnRow) :
    (mergeRow hasRF scorer fr g row).1.name = row.name ∧
    (mergeRow hasRF scorer fr g row).1.url = row.url ∧
    (mergeRow hasRF scorer fr g row).1.short_description = row.short_description ∧
    (mergeRow hasRF scorer fr g row).1.ticket_price = row.ticket_price ∧
    (mergeRow hasRF scorer fr g row).1.ticket_price_conditions =
      row.ticket_price_conditions ∧
    (mergeRow hasRF scorer fr g row).1.opening_hours = row.opening_hours ∧
    (mergeRow hasRF scorer fr g row).1.payment_methods = row.payment_methods ∧
    (mergeRow hasRF scorer fr g row).1.address = row.address ∧
    (mergeRow hasRF scorer fr g row).1.visiting_services = row.visiting_services ∧
    (mergeRow hasRF scorer fr g row).1.ticket_price_raw = row.ticket_price_raw := by
  unfold mergeRow
  cases find_best_google_match hasRF scorer (g.map GRow.name)
      (get_aliases_for_en_row fr row) 82 with
  | none => exact ⟨rfl, rfl, rfl, rfl, rfl, rfl, rfl, rfl, rfl, rfl⟩
  | some gi => exact ⟨rfl, rfl, rfl, rfl, rfl, rfl, rfl, rfl, rfl, rfl⟩

theorem mergeRow_no_match (hasRF : Bool) (scorer : Str → Str → ℚ)
    (fr : List FrRow) (g : List GRow) (row : EnRow)
    (h : find_best_google_match hasRF scorer (g.map GRow.name)
      (get_aliases_for_en_row fr row) 82 = none) :
    (mergeRow hasRF scorer fr g row).1.google_rating = [] ∧
    (mergeRow hasRF scorer fr g row).1.google_review_count = [] ∧
    (mergeRow hasRF scorer fr g row).1.place_link_google_map = [] ∧
    (mergeRow hasRF scorer fr g row).2 = some (row.name, row.url) := by
  unfold mergeRow
  rw [h]
  exact ⟨rfl, rfl, rfl, rfl⟩

theorem mergeRow_match (hasRF : Bool) (scorer : Str → Str → ℚ)
    (fr : List FrRow) (g : List GRow) (row : EnRow) (gi : Nat)
    (h : find_best_google_match hasRF scorer (g.map GRow.name)
      (get_aliases_for_en_row fr row) 82 = some gi) :
    gi < g.length ∧
    (mergeRow hasRF scorer fr g row).1.google_rating =
      (g.getD gi ⟨[], [], [], []⟩).rating ∧
    (mergeRow hasRF scorer fr g row).1.google_review_count =
      (g.getD gi ⟨[], [], [], []⟩).review_count ∧
    (mergeRow hasRF scorer fr g row).1.place_link_google_map =
      (g.getD gi ⟨[], [], [], []⟩).place_link ∧
    (mergeRow hasRF scorer fr g row).2 = none := by
  have hlt := find_best_some_lt hasRF scorer (g.map GRow.name)
    (get_aliases_for_en_row fr row) 82 gi h
  rw [List.length_map] at hlt
  unfold mergeRow
  rw [h]
  exact ⟨hlt, rfl, rfl, rfl, rfl⟩

theorem mergeAll_cons (hasRF : Bool) (scorer : Str → Str → ℚ)
    (fr : List FrRow) (g : List GRow) (row : EnRow) (rest : List EnRow) :
    mergeAll hasRF scorer fr g (row :: rest) =
      ((mergeRow hasRF scorer fr g row).1 :: (mergeAll hasRF scorer fr g rest).1,
        match (mergeRow hasRF scorer fr g row).2 with
        | some e => e :: (mergeAll hasRF scorer fr g rest).2
        | none => (mergeAll hasRF scorer fr g rest).2) := by
  rcases hmr : mergeRow hasRF scorer fr g row with ⟨o, nf⟩
  rcases hma : mergeAll hasRF scorer fr g rest with ⟨os, nfs⟩
  unfold mergeAll
  rw [hmr, hma]

/-- C8: the matcher is total (returns `None` rather than failing), and
the `not_found` side-channel of the merge loop holds exactly one
`(name, url)` entry for each anchor record with no match, in row order,
and nothing for matched records. -/
theorem merge_not_found_once (hasRF : Bool) (scorer : Str → Str → ℚ)
    (fr : List FrRow) (g : List GRow) (rows : List EnRow) :
    (mergeAll hasRF scorer fr g rows).2 =
      rows.filterMap (fun row =>
        if find_best_google_match hasRF scorer (g.map GRow.name)
            (get_aliases_for_en_row fr row) 82 = none
        then some (row.name, row.url) else none) := by
  induction rows with
  | nil => rfl
  | cons row rest ih =>
    rw [mergeAll_cons]
    simp only [List.filterMap_cons]
    cases hfind : find_best_google_match hasRF scorer (g.map GRow.name)
        (get_aliases_for_en_row fr row) 82 with
    | none =>
      obtain ⟨-, -, -, h2⟩ := mergeRow_no_match hasRF scorer fr g row hfind
      rw [if_pos rfl, h2]
      show (row.name, row.url) :: (mergeAll hasRF scorer fr g rest).2 = _
      rw [ih]
    | some gi =>
      obtain ⟨-, -, -, -, h2⟩ := mergeRow_match hasRF scorer fr g row gi hfind
      rw [if_neg (by simp), h2]
      show (mergeAll hasRF scorer fr g rest).2 = _
      rw [ih]

/-- C9: the merge emits exactly one output row per anchor row (never an
output from zero anchors), each output row keeps its anchor's ten
original fields unchanged, only the three Google columns are added —
taken from the matched candidate when a match exists and empty when it
does not — and, whenever every candidate has a non-empty rating, the
Google columns are empty exactly when no match was found. -/
theorem merge_anchor_frame (hasRF : Bool) (scorer : Str → Str → ℚ)
    (fr : List FrRow) (g : List GRow) :
    (∀ rows : List EnRow,
      (mergeAll hasRF scorer fr g rows).1.length = rows.length) ∧
    (∀ rows : List EnRow, (mergeAll hasRF scorer fr g rows).1 =
      rows.map (fun row => (mergeRow hasRF scorer fr g row).1)) ∧
    (∀ row : EnRow,
      (mergeRow hasRF scorer fr g row).1.name = row.name ∧
      (mergeRow hasRF scorer fr g row).1.url = row.url ∧
      (mergeRow hasRF scorer fr g row).1.short_description =
        row.short_description ∧
      (mergeRow hasRF scorer fr g row).1.ticket_price = row.ticket_price ∧
      (mergeRow hasRF scorer fr g row).1.ticket_price_conditions =
        row.ticket_price_conditions ∧
      (mergeRow hasRF scorer fr g row).1.opening_hours = row.opening_hours ∧
      (mergeRow hasRF scorer fr g row).1.payment_methods = row.payment_methods ∧
      (mergeRow hasRF scorer fr g row).1.address = row.address ∧
      (mergeRow hasRF scorer fr g row).1.visiting_services =
        row.visiting_services ∧
      (mergeRow hasRF scorer fr g row).1.ticket_price_raw =
        row.ticket_price_raw) ∧
    (∀ row : EnRow,
      find_best_google_match hasRF scorer (g.map GRow.name)
          (get_aliases_for_en_row fr row) 82 = none →
        (mergeRow hasRF scorer fr g row).1.google_rating = [] ∧
        (mergeRow hasRF scorer fr g row).1.google_review_count = [] ∧
        (mergeRow hasRF scorer fr g row).1.place_link_google_map = []) ∧
    (∀ (row : EnRow) (gi : Nat),
      find_best_google_match hasRF scorer (g.map GRow.name)
          (get_aliases_for_en_row fr row) 82 = some gi →
        gi < g.length ∧
        (mergeRow hasRF scorer fr g row).1.google_rating =
          (g.getD gi ⟨[], [], [], []⟩).rating ∧
        (mergeRow hasRF scorer fr g row).1.google_review_count =
          (g.getD gi ⟨[], [], [], []⟩).review_count ∧
        (mergeRow hasRF scorer fr g row).1.place_link_google_map =
          (g.getD gi ⟨[], [], [], []⟩).place_link) ∧
    ((∀ gr ∈ g, gr.rating ≠ []) → ∀ row : EnRow,
      ((mergeRow hasRF scorer fr g row).1.google_rating = [] ↔
        find_best_google_match hasRF scorer (g.map GRow.name)
          (get_aliases_for_en_row fr row) 82 = none)) := by
  have hmap : ∀ rows : List EnRow, (mergeAll hasRF scorer fr g rows).1 =
      rows.map (fun row => (mergeRow hasRF scorer fr g row).1) := by
    intro rows
    induction rows with
    | nil => rfl
    | cons row rest ih =>
      rw [mergeAll_cons]
      show (mergeRow hasRF scorer fr g row).1 ::
        (mergeAll hasRF scorer fr g rest).1 = _
      rw [List.map_cons, ih]
  refine ⟨?_, hmap, fun row => mergeRow_frame hasRF scorer fr g row, ?_, ?_, ?_⟩
  · intro rows
    rw [hmap rows, List.length_map]
  · intro row h
    obtain ⟨h1, h2, h3, -⟩ := mergeRow_no_match hasRF scorer fr g row h
    exact ⟨h1, h2, h3⟩
  · intro row gi h
    obtain ⟨h0, h1, h2, h3, -⟩ := mergeRow_match hasRF scorer fr g row gi h
    exact ⟨h0, h1, h2, h3⟩
  · intro hg row
    constructor
    · intro hempty
      cases hfind : find_best_google_match hasRF scorer (g.map GRow.name)
          (get_aliases_for_en_row fr row) 82 with
      | none => rfl
      | some gi =>
        obtain ⟨hlt, h1, -, -, -⟩ := mergeRow_match hasRF scorer fr g row gi hfind
        rw [h1] at hempty
        have hmem : g.getD gi ⟨[], [], [], []⟩ ∈ g := by
          rw [List.getD_eq_getElem g _ hlt]
          exact List.getElem_mem hlt
        exact absurd hempty (hg _ hmem)
    · intro h
      exact (mergeRow_no_match hasRF scorer fr g row h).1

set_option maxHeartbeats 1600000 in
/-- Witness for C9: with one Google candidate "tour eiffel" (non-empty
rating "4.5") and an anchor row named "Tour Eiffel", the Google-rating
column is empty iff the matcher found nothing — and here it finds the
candidate. -/
theorem merge_anchor_frame_witness :
    ((mergeRow false (fun _ _ => (0 : ℚ)) []
        [⟨"tour eiffel".toList, "4.5".toList, "100".toList, "maps".toList⟩]
        ⟨"Tour Eiffel".toList, "u".toList, [], [], [], [], [], [], [], []⟩).1.google_rating
      = [] ↔
      find_best_google_match false (fun _ _ => (0 : ℚ))
        (List.map GRow.name [⟨"tour eiffel".toList, "4.5".toList, "100".toList,
          "maps".toList⟩])
        (get_aliases_for_en_row []
          ⟨"Tour Eiffel".toList, "u".toList, [], [], [], [], [], [], [], []⟩)
        82 = none) :=
  (merge_anchor_frame false (fun _ _ => (0 : ℚ)) []
      [⟨"tour eiffel".toList, "4.5".toList, "100".toList, "maps".toList⟩]).2.2.2.2.2
    (by decide)
    ⟨"Tour Eiffel".toList, "u".toList, [], [], [], [], [], [], [], []⟩

/-! ### Character-level facts for the normalizer -/

theorem char_le_toNat {a b : Char} : a ≤ b ↔ a.toNat ≤ b.toNat := by
  rw [Char.le_def, UInt32.le_def, BitVec.le_def]
  exact Iff.rfl

theorem isLowerAlnum_toNat {c : Char} (h : isLowerAlnum c = true) :
    (97 ≤ c.toNat ∧ c.toNat ≤ 122) ∨ (48 ≤ c.toNat ∧ c.toNat ≤ 57) := by
  unfold isLowerAlnum at h
  rw [decide_eq_true_eq] at h
  rcases h with ⟨h1, h2⟩ | ⟨h1, h2⟩
  · rw [char_le_toNat] at h1 h2
    exact Or.inl ⟨h1, h2⟩
  · rw [char_le_toNat] at h1 h2
    exact Or.inr ⟨h1, h2⟩

theorem alnum_or_space_toNat {c : Char}
    (h : isLowerAlnum c = true ∨ c = ' ') :
    (97 ≤ c.toNat ∧ c.toNat ≤ 122) ∨ (48 ≤ c.toNat ∧ c.toNat ≤ 57) ∨
      c.toNat = 32 := by
  rcases h with h | h
  · rcases isLowerAlnum_toNat h with h | h
    · exact Or.inl h
    · exact Or.inr (Or.inl h)
  · exact Or.inr (Or.inr (by rw [h]; rfl))

theorem pyLower_id {c : Char} (h : isLowerAlnum c = true ∨ c = ' ') :
    pyLower c = c := by
  have hval := alnum_or_space_toNat h
  have h1 : ¬('A' ≤ c ∧ c ≤ 'Z') := by
    intro ⟨ha, hb⟩
    rw [char_le_toNat] at ha hb
    revert ha hb
    show 65 ≤ c.toNat → c.toNat ≤ 90 → False
    omega
  have h2 : c.toNat < 0xC0 := by omega
  unfold pyLower
  rw [if_neg h1, if_pos h2]

theorem nfkdChar_id {c : Char} (h : isLowerAlnum c = true ∨ c = ' ') :
    nfkdChar c = [c] := by
  have hval := alnum_or_space_toNat h
  have h2 : c.toNat < 0xE0 := by omega
  unfold nfkdChar
  rw [if_pos h2]

theorem isCombining_false {c : Char} (h : isLowerAlnum c = true ∨ c = ' ') :
    isCombining c = false := by
  have hval := alnum_or_space_toNat h
  unfold isCombining
  rw [decide_eq_false_iff_not]
  intro ⟨h1, _⟩
  omega

theorem alnum_ne_amp {c : Char} (h : isLowerAlnum c = true ∨ c = ' ') :
    c ≠ '&' := by
  intro he
  have hval := alnum_or_space_toNat h
  have : c.toNat = 38 := by rw [he]; rfl
  omega

theorem alnum_not_space {c : Char} (h : isLowerAlnum c = true) :
    isPySpace c = false := by
  have hval := isLowerAlnum_toNat h
  unfold isPySpace
  rw [decide_eq_false_iff_not]
  intro hsp
  have : c.toNat = 32 ∨ c.toNat = 9 ∨ c.toNat = 10 ∨ c.toNat = 13 ∨
      c.toNat = 11 ∨ c.toNat = 12 := by
    rcases hsp with h | h | h | h | h | h <;> rw [h] <;> simp
  omega

/-! ### Stage-identity lemmas for the normalizer on its own output -/

theorem lowerStr_id (s : Str)
    (h : ∀ c ∈ s, isLowerAlnum c = true ∨ c = ' ') : lowerStr s = s := by
  unfold lowerStr
  have hmap : s.map pyLower = s.map id :=
    List.map_congr_left (fun c hc => pyLower_id (h c hc))
  rw [hmap, List.map_id]

theorem flatten_singletons : ∀ s : Str, (s.map (fun c => [c])).flatten = s := by
  intro s
  induction s with
  | nil => rfl
  | cons c cs ih => simp [ih]

theorem strip_accents_id (s : Str)
    (h : ∀ c ∈ s, isLowerAlnum c = true ∨ c = ' ') : strip_accents s = s := by
  unfold strip_accents
  have hmap : s.map nfkdChar = s.map (fun c => [c]) :=
    List.map_congr_left (fun c hc => nfkdChar_id (h c hc))
  rw [hmap, flatten_singletons]
  rw [List.filter_eq_self]
  intro c hc
  rw [isCombining_false (h c hc)]
  rfl

theorem replaceAmp_id (s : Str) (h : ∀ c ∈ s, c ≠ '&') : replaceAmp s = s := by
  unfold replaceAmp
  induction s with
  | nil => rfl
  | cons c cs ih =>
    rw [List.flatMap_cons]
    rw [if_neg (h c (List.mem_cons_self c cs))]
    rw [ih (fun d hd => h d (List.mem_cons_of_mem c hd))]
    rfl

theorem dropWhile_eq_self_of_head (p : Char → Bool) (s : Str)
    (h : ∀ c, s.head? = some c → p c = false) : s.dropWhile p = s := by
  cases s with
  | nil => rfl
  | cons c cs =>
    rw [List.dropWhile_cons, if_neg (by simp [h c rfl])]

theorem pyStrip_eq_self (s : Str)
    (hh : ∀ c, s.head? = some c → isPySpace c = false)
    (hl : ∀ c, s.getLast? = some c → isPySpace c = false) : pyStrip s = s := by
  unfold pyStrip
  rw [dropWhile_eq_self_of_head _ _ hh]
  rw [dropWhile_eq_self_of_head _ _ (fun c hc => hl c (by rwa [List.head?_reverse] at hc))]
  rw [List.reverse_reverse]

/-! ### `joinSpace` structure -/

theorem joinSpace_ne_nil (t : Str) (ts : List Str) (ht : t ≠ []) :
    joinSpace (t :: ts) ≠ [] := by
  cases ts with
  | nil => exact ht
  | cons u us =>
    show t ++ ' ' :: joinSpace (u :: us) ≠ []
    simp

theorem joinSpace_head? (t : Str) (ts : List Str) (ht : t ≠ []) :
    (joinSpace (t :: ts)).head? = t.head? := by
  cases ts with
  | nil => rfl
  | cons u us =>
    show (t ++ ' ' :: joinSpace (u :: us)).head? = t.head?
    cases t with
    | nil => exact absurd rfl ht
    | cons c cs => rfl

theorem joinSpace_getLast? :
    ∀ (toks : List Str), (∀ t ∈ toks, t ≠ []) → toks ≠ [] →
      ∃ t ∈ toks, (joinSpace toks).getLast? = t.getLast? := by
  intro toks
  induction toks with
  | nil => intro _ h; exact absurd rfl h
  | cons t rest ih =>
    intro hne _
    cases rest with
    | nil => exact ⟨t, List.mem_cons_self t [], rfl⟩
    | cons u us =>
      obtain ⟨t', ht'm, ht'e⟩ := ih
        (fun x hx => hne x (List.mem_cons_of_mem t hx)) (by simp)
      refine ⟨t', List.mem_cons_of_mem t ht'm, ?_⟩
      show (t ++ ' ' :: joinSpace (u :: us)).getLast? = t'.getLast?
      rw [List.getLast?_append]
      have hju : joinSpace (u :: us) ≠ [] :=
        joinSpace_ne_nil u us (hne u (List.mem_cons_of_mem t (List.mem_cons_self u us)))
      have : (' ' :: joinSpace (u :: us)).getLast? = (joinSpace (u :: us)).getLast? := by
        rw [show (' ' :: joinSpace (u :: us)) = [' '] ++ joinSpace (u :: us) from rfl]
        rw [List.getLast?_append]
        cases hj : (joinSpace (u :: us)).getLast? with
        | none =>
          exact absurd (List.getLast?_eq_none_iff.1 hj) hju
        | some x => rfl
      rw [this, ht'e]
      cases hj : t'.getLast? with
      | none =>
        have ht'ne : t' ≠ [] := hne t' (List.mem_cons_of_mem t ht'm)
        exact absurd (List.getLast?_eq_none_iff.1 hj) ht'ne
      | some x => rfl

theorem mem_joinSpace :
    ∀ (toks : List Str) (c : Char), c ∈ joinSpace toks →
      c = ' ' ∨ ∃ t ∈ toks, c ∈ t := by
  intro toks
  induction toks with
  | nil => intro c hc; exact absurd hc (List.not_mem_nil c)
  | cons t rest ih =>
    intro c hc
    cases rest with
    | nil => exact Or.inr ⟨t, List.mem_cons_self t [], hc⟩
    | cons u us =>
      rw [show joinSpace (t :: u :: us) = t ++ ' ' :: joinSpace (u :: us)
        from rfl] at hc
      rcases List.mem_append.1 hc with hc | hc
      · exact Or.inr ⟨t, List.mem_cons_self t _, hc⟩
      · rcases List.mem_cons.1 hc with hc | hc
        · exact Or.inl hc
        · rcases ih c hc with hc | ⟨t', ht', hc⟩
          · exact Or.inl hc
          · exact Or.inr ⟨t', List.mem_cons_of_mem t ht', hc⟩

/-! ### `subNonAlnum` structure -/

theorem subNonAlnumGo_cons (flag : Bool) (d : Char) (cs : Str) :
    subNonAlnumGo flag (d :: cs) =
      if isLowerAlnum d then d :: subNonAlnumGo false cs
      else if flag then subNonAlnumGo true cs
      else ' ' :: subNonAlnumGo true cs := rfl

theorem subNonAlnumGo_chars :
    ∀ (s : Str) (flag : Bool) (c : Char), c ∈ subNonAlnumGo flag s →
      isLowerAlnum c = true ∨ c = ' ' := by
  intro s
  induction s with
  | nil => intro flag c hc; exact absurd hc (List.not_mem_nil c)
  | cons d cs ih =>
    intro flag c hc
    rw [subNonAlnumGo_cons] at hc
    by_cases hd : isLowerAlnum d
    · rw [if_pos hd] at hc
      rcases List.mem_cons.1 hc with hc | hc
      · exact Or.inl (hc ▸ hd)
      · exact ih false c hc
    · rw [if_neg hd] at hc
      cases flag with
      | true => exact ih true c (by simpa using hc)
      | false =>
        rcases List.mem_cons.1 (by simpa using hc) with hc | hc
        · exact Or.inr hc
        · exact ih true c hc

theorem subNonAlnumGo_alnum_append :
    ∀ (t : Str), t ≠ [] → (∀ c ∈ t, isLowerAlnum c = true) →
      ∀ (x : Str) (flag : Bool),
        subNonAlnumGo flag (t ++ x) = t ++ subNonAlnumGo false x := by
  intro t
  induction t with
  | nil => intro h; exact absurd rfl h
  | cons c t' ih =>
    intro _ halnum x flag
    rw [List.cons_append, subNonAlnumGo_cons,
      if_pos (halnum c (List.mem_cons_self c t'))]
    cases ht' : t' with
    | nil => rfl
    | cons d t'' =>
      rw [← ht']
      rw [ih (by rw [ht']; simp)
        (fun d hd => halnum d (List.mem_cons_of_mem c hd)) x false]
      rfl

theorem subNonAlnum_join_id :
    ∀ (toks : List Str),
      (∀ t ∈ toks, t ≠ [] ∧ ∀ c ∈ t, isLowerAlnum c = true) →
      ∀ flag : Bool, subNonAlnumGo flag (joinSpace toks) = joinSpace toks := by
  intro toks
  induction toks with
  | nil => intro _ flag; rfl
  | cons t rest ih =>
    intro h flag
    obtain ⟨htne, hta⟩ := h t (List.mem_cons_self t rest)
    cases rest with
    | nil =>
      show subNonAlnumGo flag t = t
      have h2 := subNonAlnumGo_alnum_append t htne hta [] flag
      rw [show subNonAlnumGo false ([] : Str) = [] from rfl,
        List.append_nil] at h2
      simpa using h2
    | cons u us =>
      show subNonAlnumGo flag (t ++ ' ' :: joinSpace (u :: us)) =
        t ++ ' ' :: joinSpace (u :: us)
      rw [subNonAlnumGo_alnum_append t htne hta _ flag]
      rw [subNonAlnumGo_cons, if_neg (by decide), if_neg (by simp)]
      rw [ih (fun x hx => h x (List.mem_cons_of_mem t hx)) true]

/-! ### `pySplitP` structure -/

theorem pySplitP_cons (c : Char) (cs : Str) :
    pySplitP (c :: cs) =
      if isPySpace c then [] :: pySplitP cs
      else
        match pySplitP cs with
        | [] => [[c]]
        | t :: ts => (c :: t) :: ts := rfl

theorem pySplitP_ne_nil : ∀ s : Str, pySplitP s ≠ [] := by
  intro s
  induction s with
  | nil => simp [pySplitP]
  | cons c cs ih =>
    rw [pySplitP_cons]
    by_cases hc : isPySpace c
    · rw [if_pos hc]; simp
    · rw [if_neg hc]
      cases hps : pySplitP cs with
      | nil => simp
      | cons t ts => simp

theorem pySplitP_append_nospace :
    ∀ (t : Str), (∀ c ∈ t, isPySpace c = false) → ∀ x : Str,
      pySplitP (t ++ x) = (t ++ (pySplitP x).headI) :: (pySplitP x).tail := by
  intro t
  induction t with
  | nil =>
    intro _ x
    cases hx : pySplitP x with
    | nil => exact absurd hx (pySplitP_ne_nil x)
    | cons h ts =>
      rw [List.nil_append, hx]
      rfl
  | cons c t' ih =>
    intro h x
    rw [List.cons_append, pySplitP_cons,
      if_neg (by rw [h c (List.mem_cons_self c t')]; simp)]
    rw [ih (fun d hd => h d (List.mem_cons_of_mem c hd)) x]
    rfl

theorem pySplitP_chars :
    ∀ (s : Str) (t : Str), t ∈ pySplitP s → ∀ c ∈ t, c ∈ s ∧ isPySpace c = false := by
  intro s
  induction s with
  | nil =>
    intro t ht c hc
    have : t = [] := by simpa [pySplitP] using ht
    rw [this] at hc
    exact absurd hc (List.not_mem_nil c)
  | cons d cs ih =>
    intro t ht c hc
    rw [pySplitP_cons] at ht
    by_cases hd : isPySpace d
    · rw [if_pos hd] at ht
      rcases List.mem_cons.1 ht with ht | ht
      · rw [ht] at hc
        exact absurd hc (List.not_mem_nil c)
      · obtain ⟨h1, h2⟩ := ih t ht c hc
        exact ⟨List.mem_cons_of_mem d h1, h2⟩
    · rw [if_neg hd] at ht
      cases hps : pySplitP cs with
      | nil => exact absurd hps (pySplitP_ne_nil cs)
      | cons t0 ts =>
        rw [hps] at ht
        rcases List.mem_cons.1 ht with ht | ht
        · rw [ht] at hc
          rcases List.mem_cons.1 hc with hc | hc
          · exact ⟨hc ▸ List.mem_cons_self d cs, hc ▸ (by simpa using hd)⟩
          · obtain ⟨h1, h2⟩ := ih t0 (hps ▸ List.mem_cons_self t0 ts) c hc
            exact ⟨List.mem_cons_of_mem d h1, h2⟩
        · obtain ⟨h1, h2⟩ := ih t (hps ▸ List.mem_cons_of_mem t0 ht) c hc
          exact ⟨List.mem_cons_of_mem d h1, h2⟩

theorem pySplit_tokens (s : Str) :
    ∀ t ∈ pySplit s, t ≠ [] ∧ ∀ c ∈ t, c ∈ s ∧ isPySpace c = false := by
  intro t ht
  unfold pySplit at ht
  have hp := List.of_mem_filter ht
  rw [decide_eq_true_eq] at hp
  exact ⟨hp, pySplitP_chars s t (List.mem_filter.1 ht).1⟩

theorem pySplit_join :
    ∀ (toks : List Str),
      (∀ t ∈ toks, t ≠ [] ∧ ∀ c ∈ t, isPySpace c = false) →
      pySplit (joinSpace toks) = toks := by
  intro toks
  induction toks with
  | nil => intro _; rfl
  | cons t rest ih =>
    intro h
    obtain ⟨htne, htc⟩ := h t (List.mem_cons_self t rest)
    cases rest with
    | nil =>
      show pySplit t = [t]
      unfold pySplit
      have := pySplitP_append_nospace t htc []
      rw [List.append_nil] at this
      rw [this]
      show List.filter _ ((t ++ []) :: []) = [t]
      rw [List.append_nil, List.filter_cons, if_pos (by simpa using htne)]
      rfl
    | cons u us =>
      show pySplit (t ++ ' ' :: joinSpace (u :: us)) = t :: u :: us
      unfold pySplit
      rw [pySplitP_append_nospace t htc (' ' :: joinSpace (u :: us))]
      rw [show pySplitP (' ' :: joinSpace (u :: us)) =
        [] :: pySplitP (joinSpace (u :: us)) from by
          rw [pySplitP_cons, if_pos (by decide)]]
      show List.filter _ ((t ++ []) :: pySplitP (joinSpace (u :: us))) = t :: u :: us
      rw [List.append_nil, List.filter_cons, if_pos (by simpa using htne)]
      have := ih (fun x hx => h x (List.mem_cons_of_mem t hx))
      unfold pySplit at this
      rw [this]

theorem normalize_name_join (toks : List Str)
    (h : ∀ t ∈ toks, t ≠ [] ∧ (∀ c ∈ t, isLowerAlnum c = true) ∧
      t ∉ BILINGUAL_STOPWORDS) :
    normalize_name (joinSpace toks) = joinSpace toks := by
  have hchars : ∀ c ∈ joinSpace toks, isLowerAlnum c = true ∨ c = ' ' := by
    intro c hc
    rcases mem_joinSpace toks c hc with hc | ⟨t, ht, hc⟩
    · exact Or.inr hc
    · exact Or.inl ((h t ht).2.1 c hc)
  have h1 : pyStrip (joinSpace toks) = joinSpace toks := by
    cases htoks : toks with
    | nil => rfl
    | cons t rest =>
      apply pyStrip_eq_self
      · intro c hch
        have htm : t ∈ toks := by rw [htoks]; exact List.mem_cons_self t rest
        rw [joinSpace_head? t rest (h t htm).1] at hch
        have hcm : c ∈ t := List.mem_of_mem_head? (show c ∈ t.head? by rw [hch]; rfl)
        exact alnum_not_space ((h t htm).2.1 c hcm)
      · intro c hcl
        obtain ⟨t', ht'm, ht'e⟩ := joinSpace_getLast? (t :: rest)
          (fun x hx => (h x (by rw [htoks]; exact hx)).1) (by simp)
        rw [ht'e] at hcl
        have hcm : c ∈ t' :=
          List.mem_of_mem_getLast? (show c ∈ t'.getLast? by rw [hcl]; rfl)
        exact alnum_not_space ((h t' (by rw [htoks]; exact ht'm)).2.1 c hcm)
  show joinSpace ((pySplit (subNonAlnum (replaceAmp (strip_accents (lowerStr
    (pyStrip (joinSpace toks))))))).filter
      (fun t => decide (t ≠ [] ∧ t ∉ BILINGUAL_STOPWORDS))) = joinSpace toks
  rw [h1, lowerStr_id _ hchars, strip_accents_id _ hchars,
    replaceAmp_id _ (fun c hc => alnum_ne_amp (hchars c hc))]
  rw [show subNonAlnum (joinSpace toks) = subNonAlnumGo false (joinSpace toks)
    from rfl]
  rw [subNonAlnum_join_id toks (fun t ht => ⟨(h t ht).1, (h t ht).2.1⟩) false]
  rw [pySplit_join toks (fun t ht => ⟨(h t ht).1,
    fun c hc => alnum_not_space ((h t ht).2.1 c hc)⟩)]
  have hfil : toks.filter (fun t => decide (t ≠ [] ∧ t ∉ BILINGUAL_STOPWORDS)) =
      toks := by
    rw [List.filter_eq_self]
    intro t ht
    rw [decide_eq_true_eq]
    exact ⟨(h t ht).1, (h t ht).2.2⟩
  rw [hfil]

/-- C3: `normalize_name` is idempotent — normalizing an already
normalized name changes nothing, for every input string. -/
theorem normalize_name_idempotent (s : Str) :
    normalize_name (normalize_name s) = normalize_name s := by
  have hshape : normalize_name s = joinSpace
      ((pySplit (subNonAlnum (replaceAmp (strip_accents (lowerStr
        (pyStrip s)))))).filter
          (fun t => decide (t ≠ [] ∧ t ∉ BILINGUAL_STOPWORDS))) := rfl
  rw [hshape]
  apply normalize_name_join
  intro t ht
  have hp := List.of_mem_filter ht
  rw [decide_eq_true_eq] at hp
  have hmem := (List.mem_filter.1 ht).1
  obtain ⟨-, hchars⟩ := pySplit_tokens _ t hmem
  refine ⟨hp.1, ?_, hp.2⟩
  intro c hc
  obtain ⟨hcx, hcns⟩ := hchars c hc
  rcases subNonAlnumGo_chars _ false c hcx with halnum | hsp
  · exact halnum
  · rw [hsp] at hcns
    exact absurd hcns (by decide)

end Monument
